import Mathlib

/-!
Verification of the pik scalar SIMD backend (`src/simd/scalar.h`) and the
cache-aligned allocator (`src/cache_aligned.h`).

Shallow embedding conventions:
* Machine integers are modelled as `Nat`/`Int`, with `% 2^w` wherever the C++
  performs modular (wrap-around) conversions or arithmetic.
* IEEE-754 bit patterns of `float`/`double` are modelled as `Nat` values below
  `2^32`/`2^64`; the rational value denoted by a finite pattern is computed by
  `fVal`.  Operations of `scalar.h` (Floor/Ceiling, movemask, bitwise ops) are
  translated bit-for-bit from the source.
* Native float arithmetic (`*`, `-`, the `double`↔`float` conversions) used by
  `rsqrt_approx`/`sqrt` is kept as an abstract operation pack `F32Ops`, since
  those claims are about the call structure, not about rounding.
* Memory is byte-addressable, a function `ℕ → ℕ`; `memcpy` of a pointer value
  is a little-endian 8-byte store, as on the x86-64 targets of the code.
-/

namespace Pik

/-! ### Saturating arithmetic (`add_sat` / `sub_sat`, scalar.h lines 133-172)

The C++ computes in `int` (promotion makes the arithmetic exact) and clamps
with `SIMD_MIN(SIMD_MAX(lo, e), hi)`. -/

def add_sat_u8 (a b : ℤ) : ℤ := min (max 0 (a + b)) 255

def add_sat_u16 (a b : ℤ) : ℤ := min (max 0 (a + b)) 65535

def add_sat_i8 (a b : ℤ) : ℤ := min (max (-128) (a + b)) 127

def add_sat_i16 (a b : ℤ) : ℤ := min (max (-32768) (a + b)) 32767

def sub_sat_u8 (a b : ℤ) : ℤ := min (max 0 (a - b)) 255

def sub_sat_u16 (a b : ℤ) : ℤ := min (max 0 (a - b)) 65535

def sub_sat_i8 (a b : ℤ) : ℤ := min (max (-128) (a - b)) 127

def sub_sat_i16 (a b : ℤ) : ℤ := min (max (-32768) (a - b)) 32767

/-- The specification-side clamp of an exact integer into `[lo, hi]`. -/
def clampZ (x lo hi : ℤ) : ℤ := max lo (min x hi)

/-- C1: for each of the four 8/16-bit element types, `add_sat a b` is the exact
sum clamped to the type's range and `sub_sat a b` is the exact difference
clamped to the type's range; concretely, `add_sat` on uint8 lanes 250 and 10
yields 255 instead of wrapping to 4. -/
theorem pik_add_sat_correct : ∀ a b : ℤ,
    (0 ≤ a → a ≤ 255 → 0 ≤ b → b ≤ 255 →
      add_sat_u8 a b = clampZ (a + b) 0 255 ∧ sub_sat_u8 a b = clampZ (a - b) 0 255) ∧
    (0 ≤ a → a ≤ 65535 → 0 ≤ b → b ≤ 65535 →
      add_sat_u16 a b = clampZ (a + b) 0 65535 ∧ sub_sat_u16 a b = clampZ (a - b) 0 65535) ∧
    (-128 ≤ a → a ≤ 127 → -128 ≤ b → b ≤ 127 →
      add_sat_i8 a b = clampZ (a + b) (-128) 127 ∧ sub_sat_i8 a b = clampZ (a - b) (-128) 127) ∧
    (-32768 ≤ a → a ≤ 32767 → -32768 ≤ b → b ≤ 32767 →
      add_sat_i16 a b = clampZ (a + b) (-32768) 32767 ∧
        sub_sat_i16 a b = clampZ (a - b) (-32768) 32767) ∧
    add_sat_u8 250 10 = 255 := by
  intro a b
  refine ⟨fun _ _ _ _ => ⟨?_, ?_⟩, fun _ _ _ _ => ⟨?_, ?_⟩,
    fun _ _ _ _ => ⟨?_, ?_⟩, fun _ _ _ _ => ⟨?_, ?_⟩, by decide⟩ <;>
    simp only [add_sat_u8, sub_sat_u8, add_sat_u16, sub_sat_u16, add_sat_i8, sub_sat_i8,
      add_sat_i16, sub_sat_i16, clampZ] <;> omega

/-- Witness for C1 at concrete uint8 lanes 250 and 10. -/
theorem pik_add_sat_correct_witness :
    (0 : ℤ) ≤ 250 ∧ (250 : ℤ) ≤ 255 ∧ (0 : ℤ) ≤ 10 ∧ (10 : ℤ) ≤ 255 ∧
      add_sat_u8 250 10 = clampZ (250 + 10) 0 255 ∧
      sub_sat_u8 250 10 = clampZ (250 - 10) 0 255 :=
  ⟨by decide, by decide, by decide, by decide,
    ((pik_add_sat_correct 250 10).1 (by decide) (by decide) (by decide) (by decide)).1,
    ((pik_add_sat_correct 250 10).1 (by decide) (by decide) (by decide) (by decide)).2⟩

/-! ### Bitwise AND-NOT and select (scalar.h lines 519-532 and 567-571)

All lanes are modelled as bit patterns (`Nat` below `2^w`); the float/double
overloads act on the reinterpreted same-width integer bits, so the same model
covers them.  `~a` on a `w`-bit machine integer is `(2^w - 1) ^^^ a`. -/

def andnotBits (w a b : ℕ) : ℕ := ((2 ^ w - 1) ^^^ a) &&& b

def selectBits (w a b mask : ℕ) : ℕ := (mask &&& b) ||| andnotBits w mask a

/-- C10: `andnot a b` complements its FIRST argument: every bit `i` of the
result is `¬(bit i of a) ∧ (bit i of b)`. -/
theorem andnot_complements_first_arg : ∀ w a b i : ℕ, a < 2 ^ w → b < 2 ^ w →
    (andnotBits w a b).testBit i = (!(a.testBit i) && b.testBit i) := by
  intro w a b i ha hb
  rw [andnotBits, Nat.testBit_and, Nat.testBit_xor, Nat.testBit_two_pow_sub_one]
  by_cases h : i < w
  · simp [h]
  · have hw : w ≤ i := le_of_not_lt h
    have h1 : a.testBit i = false :=
      Nat.testBit_lt_two_pow (lt_of_lt_of_le ha (Nat.pow_le_pow_right (by norm_num) hw))
    have h2 : b.testBit i = false :=
      Nat.testBit_lt_two_pow (lt_of_lt_of_le hb (Nat.pow_le_pow_right (by norm_num) hw))
    simp [h, h1, h2]

/-- Witness for C10 at width 8, `a = 0xF0`, `b = 0xCC`, bit 3. -/
theorem andnot_complements_first_arg_witness :
    (0xF0 : ℕ) < 2 ^ 8 ∧ (0xCC : ℕ) < 2 ^ 8 ∧
      (andnotBits 8 0xF0 0xCC).testBit 3 = (!((0xF0 : ℕ).testBit 3) && (0xCC : ℕ).testBit 3) :=
  ⟨by decide, by decide, andnot_complements_first_arg 8 0xF0 0xCC 3 (by decide) (by decide)⟩

/-- C8: `select(a, b, mask)` returns `a` for the all-zero mask and `b` for the
all-one mask (the computation is `(mask & b) | andnot(mask, a)`). -/
theorem select_mask_correct : ∀ w a b : ℕ, a < 2 ^ w → b < 2 ^ w →
    selectBits w a b 0 = a ∧ selectBits w a b (2 ^ w - 1) = b := by
  intro w a b ha hb
  constructor
  · show (0 &&& b) ||| (((2 ^ w - 1) ^^^ 0) &&& a) = a
    rw [Nat.zero_and, Nat.xor_zero, Nat.and_comm, Nat.and_pow_two_sub_one_of_lt_two_pow ha,
      Nat.zero_or]
  · show ((2 ^ w - 1) &&& b) ||| (((2 ^ w - 1) ^^^ (2 ^ w - 1)) &&& a) = b
    rw [Nat.xor_self, Nat.zero_and, Nat.or_zero, Nat.and_comm,
      Nat.and_pow_two_sub_one_of_lt_two_pow hb]

/-- Witness for C8 at width 8, `a = 5`, `b = 9`. -/
theorem select_mask_correct_witness :
    (5 : ℕ) < 2 ^ 8 ∧ (9 : ℕ) < 2 ^ 8 ∧
      selectBits 8 5 9 0 = 5 ∧ selectBits 8 5 9 (2 ^ 8 - 1) = 9 :=
  ⟨by decide, by decide, (select_mask_correct 8 5 9 (by decide) (by decide)).1,
    (select_mask_correct 8 5 9 (by decide) (by decide)).2⟩

/-! ### Zip/interleave (scalar.h lines 653-679)

The unsigned versions compute `(uintN(b) << w) + a` in a wide unsigned type and
narrow; the signed versions do the same but `a.raw` is a *signed* operand of the
addition, so C++ usual arithmetic conversions sign-extend it. -/

def zip_lo_u8 (a b : ℕ) : ℕ := ((b <<< 8) + a) % 2 ^ 16

def zip_lo_u16 (a b : ℕ) : ℕ := ((b <<< 16) + a) % 2 ^ 32

def zip_lo_u32 (a b : ℕ) : ℕ := ((b <<< 32) + a) % 2 ^ 64

/-- C++ conversion of a (possibly negative) signed value to `uint32_t`. -/
def u32_of_int (b : ℤ) : ℕ := (b % 2 ^ 32).toNat

/-- C++ narrowing of a `uint32_t` value to `int16_t` (two's complement). -/
def toI16 (x : ℕ) : ℤ :=
  if x % 2 ^ 16 < 2 ^ 15 then (x % 2 ^ 16 : ℕ) else (x % 2 ^ 16 : ℕ) - 2 ^ 16

/-- `zip_lo` on int8 lanes: `scalar<int16_t>((uint32_t(b.raw) << 8) + a.raw)`.
The addition happens in `uint32_t`, with `a.raw` converted (sign-extended
modulo `2^32`) by the usual arithmetic conversions. -/
def zip_lo_i8 (a b : ℤ) : ℤ :=
  toI16 (((u32_of_int b <<< 8) % 2 ^ 32 + u32_of_int a) % 2 ^ 32)

/-- C4 (code bug): on int8 lanes with `a = -1` (bits 0xFF) and `b = 0`,
`zip_lo` returns the int16 value -1, whose bits are 0xFFFF, whereas the claimed
result `(bits(b) <<< 8) ||| bits(a)` is 0x00FF; the sign extension of the first
argument corrupts the high byte.  The unsigned concrete scenario
`zip_lo(0x12, 0x34) = 0x3412` from the claim does hold. -/
theorem zip_lo_signed_negative_lane_bug :
    zip_lo_i8 (-1) 0 = -1 ∧
      (((0 : ℕ) <<< 8) ||| 0xFF) = 0xFF ∧
      zip_lo_i8 (-1) 0 % 2 ^ 16 ≠ ((((0 : ℕ) <<< 8) ||| 0xFF : ℕ) : ℤ) ∧
      zip_lo_u8 0x12 0x34 = 0x3412 := by
  refine ⟨by decide, by decide, ?_, by decide⟩
  decide

/-! ### Square root (scalar.h lines 341-359)

`rsqrt_approx` mixes exact bit manipulation of the IEEE pattern with native
float multiplications/subtractions.  The native float operations are abstracted
as an operation pack; the bit-level initial guess is modelled exactly
(`uint32_t` subtraction wraps modulo `2^32`). -/

structure F32Ops where
  /-- native C++ `float` multiplication on binary32 bit patterns -/
  fmul : ℕ → ℕ → ℕ
  /-- native C++ `float` subtraction on binary32 bit patterns -/
  fsub : ℕ → ℕ → ℕ
  /-- `operator*(scalar<float>, scalar<float>)`: product in `double`, narrowed -/
  smul : ℕ → ℕ → ℕ
  /-- C++ `double` → `float` conversion (binary64 pattern to binary32 pattern) -/
  f64to32 : ℕ → ℕ
  /-- C++ `float` → `double` conversion (exact widening) -/
  f32to64 : ℕ → ℕ

/-- Bit pattern of the literal `0.5f`. -/
def lit_half : ℕ := 0x3F000000

/-- Bit pattern of the literal `1.5f`. -/
def lit_three_halves : ℕ := 0x3FC00000

/-- `rsqrt_approx`, translated line by line: `half = f * 0.5f`; copy the bits;
`bits = 0x5F3759DF - (bits >> 1)` (wrapping `uint32_t` subtraction); copy back;
return `f * (1.5f - (half * f * f))`. -/
def rsqrt_approx_bits (ops : F32Ops) (v : ℕ) : ℕ :=
  let half := ops.fmul v lit_half
  let bits := v
  let guess := (0x5F3759DF + (2 ^ 32 - (bits >>> 1))) % 2 ^ 32
  ops.fmul guess (ops.fsub lit_three_halves (ops.fmul (ops.fmul half guess) guess))

/-- `sqrt(scalar<float> v) = rsqrt_approx(v) * v`. -/
def sqrt_f32 (ops : F32Ops) (v : ℕ) : ℕ := ops.smul (rsqrt_approx_bits ops v) v

/-- `sqrt(scalar<double> v)`: narrow to float, take the float sqrt, widen the
result back to double. -/
def sqrt_f64 (ops : F32Ops) (v : ℕ) : ℕ := ops.f32to64 (sqrt_f32 ops (ops.f64to32 v))

/-- Specification-side initial guess: `0x5F3759DF - (bits >> 1)` in `uint32_t`. -/
def rsqrt_guess_spec (v : ℕ) : ℕ := (0x5F3759DF + (2 ^ 32 - (v >>> 1))) % 2 ^ 32

/-- Specification-side single Newton-Raphson step `y * (1.5 - 0.5*x*y*y)`
(the product `0.5*x` is computed as `x * 0.5f`, as in the source). -/
def rsqrt_newton_spec (ops : F32Ops) (x y : ℕ) : ℕ :=
  ops.fmul y (ops.fsub lit_three_halves (ops.fmul (ops.fmul (ops.fmul x lit_half) y) y))

/-- C5: for every interpretation of the native float operations, `sqrt(float)`
is `rsqrt_approx(x) * x`; `rsqrt_approx` is exactly one Newton-Raphson step
applied to the bit-hack initial guess `0x5F3759DF - (bits >> 1)`; and
`sqrt(double)` narrows to float, takes the float sqrt and widens back (so it is
not an IEEE-correct double square root). -/
theorem sqrt_structure_correct : ∀ (ops : F32Ops) (v w : ℕ),
    sqrt_f32 ops v = ops.smul (rsqrt_approx_bits ops v) v ∧
      rsqrt_approx_bits ops v = rsqrt_newton_spec ops v (rsqrt_guess_spec v) ∧
      sqrt_f64 ops w = ops.f32to64 (sqrt_f32 ops (ops.f64to32 w)) := by
  intro ops v w
  exact ⟨rfl, rfl, rfl⟩

/-! ### Cast (scalar.h lines 71-77)

`cast_to<T>` declares a destination `T to;` of `sizeof(T)` bytes and then runs
`CopyBytes<sizeof(FromT)>(&v.raw, &to)`: the number of bytes copied into the
destination is the template argument `sizeof(FromT)`. -/

/-- Number of bytes `cast_to` copies into the `sizeof(T)`-byte destination:
the source passes `sizeof(FromT)` to `CopyBytes`. -/
def cast_to_copy_count (szT szFrom : ℕ) : ℕ := szFrom

/-- Value held by the destination object after the copy: its `sizeof(T)` bytes
receive the low `sizeof(T)` bytes of the little-endian source representation. -/
def cast_to_value (szT v : ℕ) : ℕ := v % 2 ^ (8 * szT)

/-- C6 (code bug): for `cast_to<uint8_t>` applied to a `uint32_t` lane the copy
writes `sizeof(FromT) = 4` bytes into the 1-byte destination — more than the
`sizeof(T) = 1` bytes the claim allows (3 bytes land out of bounds).  The value
part of the claim (result = low `sizeof(T)` bytes) does hold. -/
theorem cast_to_copy_size_bug :
    cast_to_copy_count 1 4 = 4 ∧ ¬(cast_to_copy_count 1 4 ≤ 1) ∧
      cast_to_value 1 0x12345678 = 0x78 := by
  refine ⟨rfl, by decide, by decide⟩

/-! ### Cache-aligned allocator (cache_aligned.h lines 39-68)

`malloc` is an oracle `ℕ → ℕ` mapping a request size to the returned address
(0 models `nullptr`).  Byte memory is `ℕ → ℕ`; `memcpy` of the 8-byte pointer
value is a little-endian store, as on the x86-64 targets of the code. -/

def kPointerSize : ℕ := 8

def kCacheLineSize : ℕ := 64

/-- `memcpy(dst, &p, 8)`: store the 8 little-endian bytes of `p` at `dst`. -/
def storePtr (mem : ℕ → ℕ) (dst p : ℕ) : ℕ → ℕ :=
  fun x => if dst ≤ x ∧ x < dst + 8 then p / 256 ^ (x - dst) % 256 else mem x

/-- `memcpy(&q, src, 8)`: read back an 8-byte little-endian pointer value. -/
def loadPtr (mem : ℕ → ℕ) (src : ℕ) : ℕ :=
  (Finset.range 8).sum (fun i => mem (src + i) * 256 ^ i)

/-- `CacheAligned::Allocate`: request `bytes + kCacheLineSize`, bail out on
null, advance past the misalignment, stash the raw pointer just before the
aligned address, return it together with the updated memory. -/
def cacheAlignedAllocate (bytes : ℕ) (malloc : ℕ → ℕ) (mem : ℕ → ℕ) :
    Option (ℕ × (ℕ → ℕ)) :=
  let allocated := malloc (bytes + kCacheLineSize)
  if allocated = 0 then none
  else
    let misalignment := allocated &&& (kCacheLineSize - 1)
    let aligned := allocated + kCacheLineSize - misalignment
    some (aligned, storePtr mem (aligned - kPointerSize) allocated)

/-- `CacheAligned::Free`: no-op on null, otherwise read the stashed raw pointer
from the 8 bytes before `ptr` and pass it to `free` (the returned address). -/
def cacheAlignedFree (mem : ℕ → ℕ) (ptr : ℕ) : Option ℕ :=
  if ptr = 0 then none else some (loadPtr mem (ptr - kPointerSize))

theorem loadPtr_storePtr (mem : ℕ → ℕ) (dst p : ℕ) (hp : p < 2 ^ 64) :
    loadPtr (storePtr mem dst p) dst = p := by
  unfold loadPtr storePtr
  rw [Finset.sum_range_succ, Finset.sum_range_succ, Finset.sum_range_succ,
    Finset.sum_range_succ, Finset.sum_range_succ, Finset.sum_range_succ,
    Finset.sum_range_succ, Finset.sum_range_succ, Finset.sum_range_zero]
  norm_num
  omega

/-- C2: if the underlying `malloc` succeeds, `Allocate` returns a non-null
pointer that is a multiple of 64 and on which every debug assertion holds, and
a single `Free` of that pointer releases exactly the original raw allocation;
`Free(nullptr)` is a no-op; if `malloc` fails, `Allocate` returns null.
(The hypothesis `p % 8 = 0` is malloc's guaranteed pointer alignment, which the
code relies on to fit the header, and `p < 2^64` is the address width.) -/
theorem cacheAligned_allocate_free_correct :
    ∀ (bytes : ℕ) (malloc : ℕ → ℕ) (mem : ℕ → ℕ),
    cacheAlignedFree mem 0 = none ∧
    (malloc (bytes + kCacheLineSize) = 0 → cacheAlignedAllocate bytes malloc mem = none) ∧
    (∀ p, malloc (bytes + kCacheLineSize) = p → p ≠ 0 → p % 8 = 0 → p < 2 ^ 64 →
      ∃ a mem2, cacheAlignedAllocate bytes malloc mem = some (a, mem2) ∧
        a ≠ 0 ∧ a % 64 = 0 ∧
        (p &&& (kCacheLineSize - 1)) % kPointerSize = 0 ∧
        p ≤ a - kPointerSize ∧ a - kCacheLineSize ≤ p ∧
        cacheAlignedFree mem2 a = some p) := by
  intro bytes malloc mem
  refine ⟨rfl, ?_, ?_⟩
  · intro h0
    unfold cacheAlignedAllocate
    rw [h0]
    rfl
  · intro p hp hp0 hp8 hp64
    have hmask : p &&& (kCacheLineSize - 1) = p % 64 := by
      show p &&& (2 ^ 6 - 1) = p % 64
      rw [Nat.and_pow_two_sub_one_eq_mod]
    refine ⟨p + kCacheLineSize - p % 64, storePtr mem (p + kCacheLineSize - p % 64 - kPointerSize) p,
      ?_, ?_, ?_, ?_, ?_, ?_, ?_⟩
    · unfold cacheAlignedAllocate
      rw [hp, if_neg hp0, hmask]
    · unfold kCacheLineSize
      omega
    · unfold kCacheLineSize
      omega
    · rw [hmask]
      unfold kPointerSize
      omega
    · unfold kCacheLineSize kPointerSize
      omega
    · unfold kCacheLineSize
      omega
    · unfold cacheAlignedFree
      rw [if_neg (by unfold kCacheLineSize; omega)]
      rw [loadPtr_storePtr _ _ _ hp64]

/-- Witness for C2: `bytes = 0`, `malloc` returning address 8, zeroed memory. -/
theorem cacheAligned_allocate_free_correct_witness :
    cacheAlignedFree (fun _ => 0) 0 = none ∧
      (∃ a mem2,
        cacheAlignedAllocate 0 (fun _ => 8) (fun _ => 0) = some (a, mem2) ∧
        a ≠ 0 ∧ a % 64 = 0 ∧
        ((8 : ℕ) &&& (kCacheLineSize - 1)) % kPointerSize = 0 ∧
        8 ≤ a - kPointerSize ∧ a - kCacheLineSize ≤ 8 ∧
        cacheAlignedFree mem2 a = some 8) :=
  ⟨(cacheAligned_allocate_free_correct 0 (fun _ => 8) (fun _ => 0)).1,
    (cacheAligned_allocate_free_correct 0 (fun _ => 8) (fun _ => 0)).2.2 8 rfl
      (by decide) (by decide) (by decide)⟩

/-- C9: `Allocate(bytes)` requests exactly `bytes + 64` from the allocator (its
result depends on the oracle only at `bytes + 64`); the returned address `a` is
`p` advanced by the least positive offset making `a` a multiple of 64; the raw
address `p` is stored in the 8 bytes immediately preceding `a`; and `Free`
reads that header back and releases `p`. -/
theorem cacheAligned_allocate_layout_correct :
    ∀ (bytes : ℕ) (malloc malloc2 : ℕ → ℕ) (mem : ℕ → ℕ),
    (malloc (bytes + 64) = malloc2 (bytes + 64) →
      cacheAlignedAllocate bytes malloc mem = cacheAlignedAllocate bytes malloc2 mem) ∧
    (∀ p, malloc (bytes + kCacheLineSize) = p → p ≠ 0 → p < 2 ^ 64 →
      ∃ a mem2, cacheAlignedAllocate bytes malloc mem = some (a, mem2) ∧
        0 < a - p ∧ a - p ≤ 64 ∧ a % 64 = 0 ∧
        (∀ o, 0 < o → (p + o) % 64 = 0 → a - p ≤ o) ∧
        loadPtr mem2 (a - kPointerSize) = p ∧
        cacheAlignedFree mem2 a = some p) := by
  intro bytes malloc malloc2 mem
  constructor
  · intro heq
    unfold cacheAlignedAllocate
    rw [show bytes + kCacheLineSize = bytes + 64 from rfl, heq]
  · intro p hp hp0 hp64
    have hmask : p &&& (kCacheLineSize - 1) = p % 64 := by
      show p &&& (2 ^ 6 - 1) = p % 64
      rw [Nat.and_pow_two_sub_one_eq_mod]
    refine ⟨p + kCacheLineSize - p % 64, storePtr mem (p + kCacheLineSize - p % 64 - kPointerSize) p,
      ?_, ?_, ?_, ?_, ?_, ?_, ?_⟩
    · unfold cacheAlignedAllocate
      rw [hp, if_neg hp0, hmask]
    · unfold kCacheLineSize
      omega
    · unfold kCacheLineSize
      omega
    · unfold kCacheLineSize
      omega
    · intro o ho hmod
      unfold kCacheLineSize
      omega
    · rw [loadPtr_storePtr _ _ _ hp64]
    · unfold cacheAlignedFree
      rw [if_neg (by unfold kCacheLineSize; omega)]
      rw [loadPtr_storePtr _ _ _ hp64]

/-- Witness for C9: `bytes = 0`, `malloc` returning address 8. -/
theorem cacheAligned_allocate_layout_correct_witness :
    (∃ a mem2,
      cacheAlignedAllocate 0 (fun _ => 8) (fun _ => 0) = some (a, mem2) ∧
      0 < a - 8 ∧ a - 8 ≤ 64 ∧ a % 64 = 0 ∧
      (∀ o, 0 < o → (8 + o) % 64 = 0 → a - 8 ≤ o) ∧
      loadPtr mem2 (a - kPointerSize) = 8 ∧
      cacheAlignedFree mem2 a = some 8) :=
  (cacheAligned_allocate_layout_correct 0 (fun _ => 8) (fun _ => 8) (fun _ => 0)).2 8 rfl
    (by decide) (by decide)

/-! ### IEEE-754 bit patterns

A `float`/`double` is a bit pattern `n < 2^(mb+eb+1)` with `mb` mantissa bits
and `eb` exponent bits (`mb = 23, eb = 8` for float; `52, 11` for double).
`fVal` is the denoted rational for finite patterns (for `fExp = fEmax` the
pattern denotes an infinity or NaN instead).  The C++ comparisons `f < 0.0`
and `f > 0.0` are IEEE comparisons, reflected on bit patterns by `fLtZero` /
`fGtZero`; `fLe` / `fEqIEEE` are the IEEE `<=` and `==`. -/

def fSignBit (mb eb n : ℕ) : ℕ := n / 2 ^ (mb + eb)

def fExp (mb eb n : ℕ) : ℕ := n / 2 ^ mb % 2 ^ eb

def fMant (mb n : ℕ) : ℕ := n % 2 ^ mb

def fMag (mb eb n : ℕ) : ℕ := n % 2 ^ (mb + eb)

def fBias (eb : ℕ) : ℕ := 2 ^ (eb - 1) - 1

def fEmax (eb : ℕ) : ℕ := 2 ^ eb - 1

def fIsNaN (mb eb n : ℕ) : Bool := fExp mb eb n == fEmax eb && fMant mb n != 0

def fIsInf (mb eb n : ℕ) : Bool := fExp mb eb n == fEmax eb && fMant mb n == 0

def fFinite (mb eb n : ℕ) : Bool := decide (fExp mb eb n < fEmax eb)

/-- Rational value of a finite pattern (sign, significand, scale). -/
def fVal (mb eb n : ℕ) : ℚ :=
  (if fSignBit mb eb n = 1 then (-1 : ℚ) else 1) *
    ((if fExp mb eb n = 0 then fMant mb n else 2 ^ mb + fMant mb n : ℕ) : ℚ) *
    (2 : ℚ) ^ ((max (fExp mb eb n) 1 : ℤ) - fBias eb - mb)

/-- IEEE `x < 0.0`: negative sign, nonzero magnitude, not NaN. -/
def fLtZero (mb eb n : ℕ) : Bool :=
  fSignBit mb eb n == 1 && !fIsNaN mb eb n && fMag mb eb n != 0

/-- IEEE `x > 0.0`: positive sign, nonzero magnitude, not NaN. -/
def fGtZero (mb eb n : ℕ) : Bool :=
  fSignBit mb eb n == 0 && !fIsNaN mb eb n && fMag mb eb n != 0

/-- IEEE `a <= b` on bit patterns (false whenever either side is NaN). -/
def fLe (mb eb a b : ℕ) : Bool :=
  !fIsNaN mb eb a && !fIsNaN mb eb b &&
    ((fIsInf mb eb a && fSignBit mb eb a == 1) ||
      (fIsInf mb eb b && fSignBit mb eb b == 0) ||
      (fFinite mb eb a && fFinite mb eb b && decide (fVal mb eb a ≤ fVal mb eb b)))

/-- IEEE `a == b` on bit patterns (identifies `+0` and `-0`, false on NaN). -/
def fEqIEEE (mb eb a b : ℕ) : Bool :=
  !fIsNaN mb eb a && !fIsNaN mb eb b &&
    ((fIsInf mb eb a && fIsInf mb eb b && fSignBit mb eb a == fSignBit mb eb b) ||
      (fFinite mb eb a && fFinite mb eb b && decide (fVal mb eb a = fVal mb eb b)))

/-- Flip the sign bit (the mathematical `-x` on bit patterns). -/
def fNeg (mb eb n : ℕ) : ℕ :=
  if n < 2 ^ (mb + eb) then n + 2 ^ (mb + eb) else n - 2 ^ (mb + eb)

/-! ### `Ceiling` / `Floor` (scalar.h lines 373-449), translated line by line.

`Bits` is a `mb+eb+1`-wide unsigned integer; `~mask` is
`(2^(mb+eb+1) - 1) ^^^ mask`; the `int` exponent lives in `ℤ`. -/

def floorBits (mb eb n : ℕ) : ℕ :=
  let kExponentMask : ℕ := 2 ^ eb - 1
  let kMantissaMask : ℕ := 2 ^ mb - 1
  let kBias : ℕ := kExponentMask / 2
  let negative := fLtZero mb eb n
  let exponent : ℤ := (((n >>> mb) &&& kExponentMask : ℕ) : ℤ) - (kBias : ℤ)
  if (mb : ℤ) ≤ exponent then n
  else if exponent < 0 then (if negative then 2 ^ (mb + eb) + kBias * 2 ^ mb else 0)
  else
    let mantissa_mask := kMantissaMask >>> exponent.toNat
    if n &&& mantissa_mask = 0 then n
    else
      (if negative then n + ((kMantissaMask + 1) >>> exponent.toNat) else n) &&&
        ((2 ^ (mb + eb + 1) - 1) ^^^ mantissa_mask)

def ceilBits (mb eb n : ℕ) : ℕ :=
  let kExponentMask : ℕ := 2 ^ eb - 1
  let kMantissaMask : ℕ := 2 ^ mb - 1
  let kBias : ℕ := kExponentMask / 2
  let positive := fGtZero mb eb n
  let exponent : ℤ := (((n >>> mb) &&& kExponentMask : ℕ) : ℤ) - (kBias : ℤ)
  if (mb : ℤ) ≤ exponent then n
  else if exponent < 0 then (if positive then kBias * 2 ^ mb else 0)
  else
    let mantissa_mask := kMantissaMask >>> exponent.toNat
    if n &&& mantissa_mask = 0 then n
    else
      (if positive then n + ((kMantissaMask + 1) >>> exponent.toNat) else n) &&&
        ((2 ^ (mb + eb + 1) - 1) ^^^ mantissa_mask)

/-- `round_neg_inf(scalar<float>) = Floor<float, uint32_t, 23, 8>`. -/
def round_neg_inf_f32 (n : ℕ) : ℕ := floorBits 23 8 n

/-- `round_pos_inf(scalar<float>) = Ceiling<float, uint32_t, 23, 8>`. -/
def round_pos_inf_f32 (n : ℕ) : ℕ := ceilBits 23 8 n

/-- `round_neg_inf(scalar<double>) = Floor<double, uint64_t, 52, 11>`. -/
def round_neg_inf_f64 (n : ℕ) : ℕ := floorBits 52 11 n

/-- `round_pos_inf(scalar<double>) = Ceiling<double, uint64_t, 52, 11>`. -/
def round_pos_inf_f64 (n : ℕ) : ℕ := ceilBits 52 11 n

/-! ### `ext::movemask` (scalar.h lines 713-717). -/

/-- `movemask(scalar<uint8_t> v) = v.raw >> 7`. -/
def movemask_u8 (v : ℕ) : ℕ := v >>> 7

/-- `movemask(scalar<float> v) = (v.raw < 0.0f)` as a `uint32_t`. -/
def movemask_f32 (n : ℕ) : ℕ := if fLtZero 23 8 n then 1 else 0

/-- `movemask(scalar<double> v) = (v.raw < 0.0)` as a `uint32_t`. -/
def movemask_f64 (n : ℕ) : ℕ := if fLtZero 52 11 n then 1 else 0

/-! ### Decoding lemmas for bit patterns. -/

theorem fields_decode (mb eb s e m : ℕ) (hs : s < 2) (he : e < 2 ^ eb) (hm : m < 2 ^ mb) :
    fSignBit mb eb (s * 2 ^ (mb + eb) + e * 2 ^ mb + m) = s ∧
      fExp mb eb (s * 2 ^ (mb + eb) + e * 2 ^ mb + m) = e ∧
      fMant mb (s * 2 ^ (mb + eb) + e * 2 ^ mb + m) = m := by
  have hrew : s * 2 ^ (mb + eb) + e * 2 ^ mb + m = m + 2 ^ mb * (e + 2 ^ eb * s) := by
    rw [pow_add]; ring
  have hmb : 0 < 2 ^ mb := Nat.two_pow_pos mb
  have heb : 0 < 2 ^ eb := Nat.two_pow_pos eb
  refine ⟨?_, ?_, ?_⟩
  · unfold fSignBit
    rw [hrew, pow_add]
    rw [show m + 2 ^ mb * (e + 2 ^ eb * s) = (m + 2 ^ mb * e) + 2 ^ mb * 2 ^ eb * s by ring]
    rw [Nat.add_mul_div_left _ _ (Nat.mul_pos hmb heb)]
    have hbound : m + 2 ^ mb * e < 2 ^ mb * 2 ^ eb := by
      have h1 : e ≤ 2 ^ eb - 1 := by omega
      have h2 : 2 ^ mb * e ≤ 2 ^ mb * (2 ^ eb - 1) := Nat.mul_le_mul_left _ h1
      have h3 : 2 ^ mb * (2 ^ eb - 1) + 2 ^ mb = 2 ^ mb * 2 ^ eb := by
        rw [← Nat.mul_succ]
        congr 1
        omega
      omega
    have := Nat.div_eq_of_lt hbound
    omega
  · unfold fExp
    rw [hrew, Nat.add_mul_div_left _ _ hmb, Nat.div_eq_of_lt hm, Nat.zero_add,
      Nat.add_mul_mod_self_left, Nat.mod_eq_of_lt he]
  · unfold fMant
    rw [hrew, Nat.add_mul_mod_self_left, Nat.mod_eq_of_lt hm]

theorem fields_recompose (mb eb n : ℕ) (hn : n < 2 ^ (mb + eb + 1)) :
    n = fSignBit mb eb n * 2 ^ (mb + eb) + fExp mb eb n * 2 ^ mb + fMant mb n ∧
      fSignBit mb eb n < 2 ∧ fExp mb eb n < 2 ^ eb ∧ fMant mb n < 2 ^ mb := by
  have hmb : 0 < 2 ^ mb := Nat.two_pow_pos mb
  have hme : 0 < 2 ^ (mb + eb) := Nat.two_pow_pos (mb + eb)
  refine ⟨?_, ?_, Nat.mod_lt _ (Nat.two_pow_pos eb), Nat.mod_lt _ hmb⟩
  · unfold fSignBit fExp fMant
    have h1 : 2 ^ (mb + eb) * (n / 2 ^ (mb + eb)) + n % 2 ^ (mb + eb) = n :=
      Nat.div_add_mod n (2 ^ (mb + eb))
    have h2 : n % 2 ^ (mb + eb) / 2 ^ mb = n / 2 ^ mb % 2 ^ eb := by
      rw [pow_add]; exact Nat.mod_mul_right_div_self n (2 ^ mb) (2 ^ eb)
    have h3 : n % 2 ^ (mb + eb) % 2 ^ mb = n % 2 ^ mb :=
      Nat.mod_mod_of_dvd n (pow_dvd_pow 2 (Nat.le_add_right mb eb))
    have h4 : 2 ^ mb * (n % 2 ^ (mb + eb) / 2 ^ mb) + n % 2 ^ (mb + eb) % 2 ^ mb =
        n % 2 ^ (mb + eb) := Nat.div_add_mod _ _
    rw [h2, h3] at h4
    have h5 : n / 2 ^ (mb + eb) * 2 ^ (mb + eb) = 2 ^ (mb + eb) * (n / 2 ^ (mb + eb)) :=
      mul_comm _ _
    have h6 : n / 2 ^ mb % 2 ^ eb * 2 ^ mb = 2 ^ mb * (n / 2 ^ mb % 2 ^ eb) := mul_comm _ _
    omega
  · unfold fSignBit
    rw [Nat.div_lt_iff_lt_mul hme]
    calc n < 2 ^ (mb + eb + 1) := hn
      _ = 2 * 2 ^ (mb + eb) := by rw [pow_succ]; ring

theorem fMag_eq (mb eb n : ℕ) (hn : n < 2 ^ (mb + eb + 1)) :
    fMag mb eb n = fExp mb eb n * 2 ^ mb + fMant mb n := by
  obtain ⟨hrec, hs, he, hm⟩ := fields_recompose mb eb n hn
  unfold fMag
  conv_lhs => rw [hrec]
  have hlt : fExp mb eb n * 2 ^ mb + fMant mb n < 2 ^ (mb + eb) := by
    have h1 : fExp mb eb n * 2 ^ mb ≤ (2 ^ eb - 1) * 2 ^ mb :=
      Nat.mul_le_mul_right _ (by omega)
    have h2 : (2 ^ eb - 1) * 2 ^ mb + 2 ^ mb = 2 ^ (mb + eb) := by
      rw [Nat.sub_one_mul, pow_add]
      have : 2 ^ mb ≤ 2 ^ eb * 2 ^ mb :=
        Nat.le_mul_of_pos_left _ (Nat.two_pow_pos eb)
      rw [mul_comm (2 ^ eb) (2 ^ mb)] at this ⊢
      omega
    omega
  rw [show fSignBit mb eb n * 2 ^ (mb + eb) + fExp mb eb n * 2 ^ mb + fMant mb n =
    (fExp mb eb n * 2 ^ mb + fMant mb n) + 2 ^ (mb + eb) * fSignBit mb eb n by ring]
  rw [Nat.add_mul_mod_self_left, Nat.mod_eq_of_lt hlt]

theorem fVal_fields (mb eb s e m : ℕ) (hs : s < 2) (he : e < 2 ^ eb) (hm : m < 2 ^ mb)
    (he1 : 1 ≤ e) :
    fVal mb eb (s * 2 ^ (mb + eb) + e * 2 ^ mb + m) =
      (if s = 1 then (-1 : ℚ) else 1) * ((2 ^ mb + m : ℕ) : ℚ) *
        (2 : ℚ) ^ ((e : ℤ) - fBias eb - mb) := by
  obtain ⟨h1, h2, h3⟩ := fields_decode mb eb s e m hs he hm
  unfold fVal
  rw [h1, h2, h3]
  rw [if_neg (show ¬ e = 0 by omega)]
  rw [max_eq_left (show (1 : ℤ) ≤ (e : ℤ) by exact_mod_cast he1)]

theorem fVal_zero_pattern (mb eb : ℕ) : fVal mb eb 0 = 0 := by
  unfold fVal fSignBit fExp fMant
  simp

/-! ### Bit-manipulation bridge lemmas. -/

theorem kbias_eq (eb : ℕ) (heb : 1 ≤ eb) : (2 ^ eb - 1) / 2 = fBias eb := by
  have h : 2 ^ eb = 2 * 2 ^ (eb - 1) := by
    conv_lhs => rw [show eb = (eb - 1) + 1 by omega]
    rw [pow_succ]; ring
  have h2 : 0 < 2 ^ (eb - 1) := Nat.two_pow_pos _
  unfold fBias
  omega

theorem code_exp (mb eb n : ℕ) : ((n >>> mb) &&& (2 ^ eb - 1)) = fExp mb eb n := by
  rw [Nat.shiftRight_eq_div_pow, Nat.and_pow_two_sub_one_eq_mod]
  rfl

theorem mask_shift (mb k : ℕ) (hk : k ≤ mb) : (2 ^ mb - 1) >>> k = 2 ^ (mb - k) - 1 := by
  rw [Nat.shiftRight_eq_div_pow]
  have h : 2 ^ mb = 2 ^ k * 2 ^ (mb - k) := by rw [← pow_add]; congr 1; omega
  have hA : 1 ≤ 2 ^ (mb - k) := Nat.one_le_two_pow
  have hB : 1 ≤ 2 ^ k := Nat.one_le_two_pow
  have h2 : 2 ^ mb - 1 = (2 ^ (mb - k) - 1) * 2 ^ k + (2 ^ k - 1) := by
    have h3 : (2 ^ (mb - k) - 1) * 2 ^ k = 2 ^ (mb - k) * 2 ^ k - 2 ^ k := by
      rw [Nat.sub_mul, one_mul]
    have h4 : 2 ^ k ≤ 2 ^ (mb - k) * 2 ^ k := Nat.le_mul_of_pos_left _ (by omega)
    have h5 : 2 ^ (mb - k) * 2 ^ k = 2 ^ mb := by rw [h, mul_comm]
    omega
  rw [h2, add_comm, Nat.add_mul_div_right _ _ (Nat.two_pow_pos k),
    Nat.div_eq_of_lt (by omega), Nat.zero_add]

theorem pow_shift (mb k : ℕ) (hk : k ≤ mb) : (2 ^ mb) >>> k = 2 ^ (mb - k) := by
  rw [Nat.shiftRight_eq_div_pow, Nat.pow_div hk (by norm_num)]

theorem n_and_low (mb eb n d : ℕ) (hd : d ≤ mb) : n &&& (2 ^ d - 1) = fMant mb n % 2 ^ d := by
  rw [Nat.and_pow_two_sub_one_eq_mod]
  unfold fMant
  rw [Nat.mod_mod_of_dvd n (pow_dvd_pow 2 hd)]

theorem testBit_div_pow (x d j : ℕ) : (x / 2 ^ d).testBit j = x.testBit (j + d) := by
  rw [Nat.testBit_to_div_mod, Nat.testBit_to_div_mod, Nat.div_div_eq_div_mul, ← pow_add,
    add_comm d j]

theorem and_xor_mask (w d x : ℕ) (hdw : d ≤ w) (hx : x < 2 ^ w) :
    x &&& ((2 ^ w - 1) ^^^ (2 ^ d - 1)) = x - x % 2 ^ d := by
  have hsub : x - x % 2 ^ d = 2 ^ d * (x / 2 ^ d) := by
    have := Nat.div_add_mod x (2 ^ d)
    omega
  rw [hsub]
  apply Nat.eq_of_testBit_eq
  intro i
  rw [Nat.testBit_and, Nat.testBit_xor, Nat.testBit_two_pow_sub_one,
    Nat.testBit_two_pow_sub_one, Nat.testBit_mul_pow_two]
  by_cases hid : i < d
  · have h1 : ¬ d ≤ i := by omega
    have h2 : i < w := by omega
    simp [hid, h1, h2]
  · have hdi : d ≤ i := by omega
    by_cases hiw : i < w
    · have : (x / 2 ^ d).testBit (i - d) = x.testBit i := by
        rw [testBit_div_pow]
        congr 1
        omega
      simp [hid, hiw, hdi, this]
    · have hx2 : x.testBit i = false :=
        Nat.testBit_lt_two_pow
          (lt_of_lt_of_le hx (Nat.pow_le_pow_right (by norm_num) (by omega)))
      have hq : (x / 2 ^ d).testBit (i - d) = false := by
        apply Nat.testBit_lt_two_pow
        have h1 : x < 2 ^ d * 2 ^ (i - d) := by
          calc x < 2 ^ w := hx
            _ ≤ 2 ^ i := Nat.pow_le_pow_right (by norm_num) (by omega)
            _ = 2 ^ d * 2 ^ (i - d) := by rw [← pow_add]; congr 1; omega
        exact Nat.div_lt_of_lt_mul h1
      simp [hid, hiw, hx2, hq]

/-- Branch-normalized form of `floorBits`: the machine expressions for the
exponent field, the shifted masks and the bit operations are rewritten into
their arithmetic meaning. -/
theorem floorBits_eq (mb eb n : ℕ) (heb : 1 ≤ eb) :
    floorBits mb eb n =
      if (mb : ℤ) ≤ (fExp mb eb n : ℤ) - fBias eb then n
      else if (fExp mb eb n : ℤ) - (fBias eb : ℤ) < 0 then
        (if fLtZero mb eb n then 2 ^ (mb + eb) + fBias eb * 2 ^ mb else 0)
      else
        (if fMant mb n % 2 ^ (mb - (fExp mb eb n - fBias eb)) = 0 then n
          else
            (if fLtZero mb eb n then n + 2 ^ (mb - (fExp mb eb n - fBias eb)) else n) &&&
              ((2 ^ (mb + eb + 1) - 1) ^^^ (2 ^ (mb - (fExp mb eb n - fBias eb)) - 1))) := by
  unfold floorBits
  simp only
  rw [code_exp, kbias_eq eb heb]
  by_cases h1 : (mb : ℤ) ≤ (fExp mb eb n : ℤ) - fBias eb
  · rw [if_pos h1, if_pos h1]
  · rw [if_neg h1, if_neg h1]
    by_cases h2 : (fExp mb eb n : ℤ) - (fBias eb : ℤ) < 0
    · rw [if_pos h2, if_pos h2]
    · rw [if_neg h2, if_neg h2]
      have hbias : fBias eb ≤ fExp mb eb n := by omega
      have hklt : fExp mb eb n - fBias eb < mb := by omega
      have htn : ((fExp mb eb n : ℤ) - (fBias eb : ℤ)).toNat = fExp mb eb n - fBias eb :=
        Int.toNat_sub _ _
      rw [htn, mask_shift mb _ (by omega), n_and_low mb eb n _ (by omega)]
      rw [show (2 ^ mb - 1 + 1) = 2 ^ mb from by
        have := Nat.one_le_two_pow (n := mb); omega]
      rw [pow_shift mb _ (by omega)]

/-- Branch-normalized form of `ceilBits`. -/
theorem ceilBits_eq (mb eb n : ℕ) (heb : 1 ≤ eb) :
    ceilBits mb eb n =
      if (mb : ℤ) ≤ (fExp mb eb n : ℤ) - fBias eb then n
      else if (fExp mb eb n : ℤ) - (fBias eb : ℤ) < 0 then
        (if fGtZero mb eb n then fBias eb * 2 ^ mb else 0)
      else
        (if fMant mb n % 2 ^ (mb - (fExp mb eb n - fBias eb)) = 0 then n
          else
            (if fGtZero mb eb n then n + 2 ^ (mb - (fExp mb eb n - fBias eb)) else n) &&&
              ((2 ^ (mb + eb + 1) - 1) ^^^ (2 ^ (mb - (fExp mb eb n - fBias eb)) - 1))) := by
  unfold ceilBits
  simp only
  rw [code_exp, kbias_eq eb heb]
  by_cases h1 : (mb : ℤ) ≤ (fExp mb eb n : ℤ) - fBias eb
  · rw [if_pos h1, if_pos h1]
  · rw [if_neg h1, if_neg h1]
    by_cases h2 : (fExp mb eb n : ℤ) - (fBias eb : ℤ) < 0
    · rw [if_pos h2, if_pos h2]
    · rw [if_neg h2, if_neg h2]
      have hbias : fBias eb ≤ fExp mb eb n := by omega
      have hklt : fExp mb eb n - fBias eb < mb := by omega
      have htn : ((fExp mb eb n : ℤ) - (fBias eb : ℤ)).toNat = fExp mb eb n - fBias eb :=
        Int.toNat_sub _ _
      rw [htn, mask_shift mb _ (by omega), n_and_low mb eb n _ (by omega)]
      rw [show (2 ^ mb - 1 + 1) = 2 ^ mb from by
        have := Nat.one_le_two_pow (n := mb); omega]
      rw [pow_shift mb _ (by omega)]

/-! ### Value classification lemmas. -/

theorem fields_bound (mb eb s e m : ℕ) (hs : s < 2) (he : e < 2 ^ eb) (hm : m < 2 ^ mb) :
    s * 2 ^ (mb + eb) + e * 2 ^ mb + m < 2 ^ (mb + eb + 1) := by
  have h1 : e * 2 ^ mb ≤ (2 ^ eb - 1) * 2 ^ mb := Nat.mul_le_mul_right _ (by omega)
  have h2 : (2 ^ eb - 1) * 2 ^ mb + 2 ^ mb = 2 ^ (mb + eb) := by
    rw [Nat.sub_one_mul, pow_add, mul_comm (2 ^ mb) (2 ^ eb)]
    have : 2 ^ mb ≤ 2 ^ eb * 2 ^ mb := Nat.le_mul_of_pos_left _ (Nat.two_pow_pos eb)
    omega
  have h3 : s * 2 ^ (mb + eb) ≤ 1 * 2 ^ (mb + eb) := Nat.mul_le_mul_right _ (by omega)
  have h4 : 2 ^ (mb + eb + 1) = 2 ^ (mb + eb) * 2 := pow_succ 2 (mb + eb)
  omega

theorem fLtZero_iff (mb eb n : ℕ) (hnan : fIsNaN mb eb n = false) :
    fLtZero mb eb n = true ↔ (fSignBit mb eb n = 1 ∧ fMag mb eb n ≠ 0) := by
  simp [fLtZero, hnan]

theorem fGtZero_iff (mb eb n : ℕ) (hnan : fIsNaN mb eb n = false) :
    fGtZero mb eb n = true ↔ (fSignBit mb eb n = 0 ∧ fMag mb eb n ≠ 0) := by
  simp [fGtZero, hnan]

theorem fIsNaN_of_finite (mb eb n : ℕ) (h : fExp mb eb n < fEmax eb) :
    fIsNaN mb eb n = false := by
  simp [fIsNaN, Nat.ne_of_lt h]

theorem fFinite_iff (mb eb n : ℕ) : fFinite mb eb n = true ↔ fExp mb eb n < fEmax eb := by
  simp [fFinite]

theorem neg_sgn_mul_pos_lt {M : ℚ} (hM : 0 < M) (E : ℤ) : -1 * M * (2 : ℚ) ^ E < 0 := by
  have h := zpow_pos (show (0 : ℚ) < 2 by norm_num) E
  nlinarith

theorem pos_sgn_mul_nonneg {M : ℚ} (hM : 0 ≤ M) (E : ℤ) : 0 ≤ 1 * M * (2 : ℚ) ^ E := by
  have h := zpow_pos (show (0 : ℚ) < 2 by norm_num) E
  nlinarith

theorem fVal_neg_of (mb eb n : ℕ) (hn : n < 2 ^ (mb + eb + 1)) (hs : fSignBit mb eb n = 1)
    (hmag : fMag mb eb n ≠ 0) : fVal mb eb n < 0 := by
  have hmageq := fMag_eq mb eb n hn
  unfold fVal
  rw [hs, if_pos rfl]
  have hM : 0 < (if fExp mb eb n = 0 then fMant mb n else 2 ^ mb + fMant mb n) := by
    by_cases he : fExp mb eb n = 0
    · rw [if_pos he]
      rw [he] at hmageq
      simp at hmageq
      omega
    · rw [if_neg he]
      have := Nat.two_pow_pos mb
      omega
  have hMq : (0 : ℚ) <
      ((if fExp mb eb n = 0 then fMant mb n else 2 ^ mb + fMant mb n : ℕ) : ℚ) := by
    exact_mod_cast hM
  exact neg_sgn_mul_pos_lt hMq _

theorem fVal_nonneg_of (mb eb n : ℕ) (hs : fSignBit mb eb n ≠ 1) : 0 ≤ fVal mb eb n := by
  unfold fVal
  rw [if_neg hs]
  exact pos_sgn_mul_nonneg (by positivity) _

theorem fVal_zero_of_mag_zero (mb eb n : ℕ) (hn : n < 2 ^ (mb + eb + 1))
    (h : fMag mb eb n = 0) : fVal mb eb n = 0 := by
  have hmageq := fMag_eq mb eb n hn
  have hmb := Nat.two_pow_pos mb
  have he : fExp mb eb n = 0 := by nlinarith [hmageq.symm.trans h]
  have hm : fMant mb n = 0 := by omega
  unfold fVal
  rw [he, hm]
  norm_num

theorem fBias_one_le (eb : ℕ) (heb : 2 ≤ eb) : 1 ≤ fBias eb := by
  unfold fBias
  have : 2 ≤ 2 ^ (eb - 1) := by
    calc 2 = 2 ^ 1 := rfl
      _ ≤ 2 ^ (eb - 1) := Nat.pow_le_pow_right (by norm_num) (by omega)
  omega

theorem fBias_mb_lt_emax (mb eb : ℕ) (heb : 2 ≤ eb) (hsize : mb < 2 ^ (eb - 1)) :
    fBias eb + mb < fEmax eb := by
  unfold fBias fEmax
  have h : 2 ^ eb = 2 * 2 ^ (eb - 1) := by
    conv_lhs => rw [show eb = (eb - 1) + 1 by omega]
    rw [pow_succ]; ring
  omega

/-- A pattern whose (biased) exponent field is below the bias denotes a value
in the open interval `(-1, 1)`. -/
theorem fVal_small (mb eb n : ℕ) (hmb : 1 ≤ mb) (heb : 2 ≤ eb)
    (hn : n < 2 ^ (mb + eb + 1)) (he : fExp mb eb n < fBias eb) :
    -1 < fVal mb eb n ∧ fVal mb eb n < 1 := by
  obtain ⟨hrec, hs, heb2, hm⟩ := fields_recompose mb eb n hn
  have hbias1 : 1 ≤ fBias eb := fBias_one_le eb heb
  have hmax : max (fExp mb eb n) 1 ≤ fBias eb + mb := by
    rcases max_cases (fExp mb eb n) 1 with ⟨h1, _⟩ | ⟨h1, _⟩ <;> omega
  have hE : (max ((fExp mb eb n : ℕ) : ℤ) 1 - (fBias eb : ℤ) - (mb : ℤ)) =
      -(((fBias eb + mb - max (fExp mb eb n) 1 : ℕ)) : ℤ) := by
    rw [Nat.cast_sub hmax]
    push_cast
    omega
  have hkey : ∀ N : ℕ, N < 2 ^ (fBias eb + mb - max (fExp mb eb n) 1) →
      0 ≤ (N : ℚ) * ((2 : ℚ) ^ (fBias eb + mb - max (fExp mb eb n) 1))⁻¹ ∧
        (N : ℚ) * ((2 : ℚ) ^ (fBias eb + mb - max (fExp mb eb n) 1))⁻¹ < 1 := by
    intro N hN
    constructor
    · positivity
    · rw [← div_eq_mul_inv, div_lt_one (by positivity)]
      exact_mod_cast hN
  unfold fVal
  rw [hE, zpow_neg, zpow_natCast]
  by_cases he0 : fExp mb eb n = 0
  · rw [if_pos he0]
    have hNlt : fMant mb n < 2 ^ (fBias eb + mb - max (fExp mb eb n) 1) := by
      calc fMant mb n < 2 ^ mb := hm
        _ ≤ 2 ^ (fBias eb + mb - max (fExp mb eb n) 1) := by
          apply Nat.pow_le_pow_right (by norm_num)
          rcases max_cases (fExp mb eb n) 1 with ⟨h1, _⟩ | ⟨h1, _⟩ <;> omega
    obtain ⟨hk0, hk1⟩ := hkey _ hNlt
    by_cases hs1 : fSignBit mb eb n = 1
    · rw [if_pos hs1]; constructor <;> nlinarith
    · rw [if_neg hs1]; constructor <;> nlinarith
  · rw [if_neg he0]
    have hNlt : 2 ^ mb + fMant mb n < 2 ^ (fBias eb + mb - max (fExp mb eb n) 1) := by
      have h1 : max (fExp mb eb n) 1 = fExp mb eb n := max_eq_left (by omega)
      calc 2 ^ mb + fMant mb n < 2 ^ mb + 2 ^ mb := by omega
        _ = 2 ^ (mb + 1) := by rw [pow_succ]; ring
        _ ≤ 2 ^ (fBias eb + mb - max (fExp mb eb n) 1) := by
          apply Nat.pow_le_pow_right (by norm_num)
          omega
    obtain ⟨hk0, hk1⟩ := hkey _ hNlt
    by_cases hs1 : fSignBit mb eb n = 1
    · rw [if_pos hs1]; constructor <;> nlinarith
    · rw [if_neg hs1]; constructor <;> nlinarith

/-! ### Rational floor/ceil of natural divisions. -/

theorem floor_natCast_div (M D : ℕ) (hD : 0 < D) :
    ⌊(M : ℚ) / (D : ℚ)⌋ = ((M / D : ℕ) : ℤ) := by
  have hD0 : (0 : ℚ) < D := by exact_mod_cast hD
  rw [Int.floor_eq_iff]
  constructor
  · rw [le_div_iff₀ hD0]
    exact_mod_cast Nat.div_mul_le_self M D
  · rw [div_lt_iff₀ hD0]
    have h1 := Nat.div_add_mod M D
    have h2 : M % D < D := Nat.mod_lt _ hD
    have h3 : (M / D + 1) * D = D * (M / D) + D := by ring
    have h4 : M < (M / D + 1) * D := by omega
    push_cast
    exact_mod_cast h4

theorem ceil_natCast_div (M D : ℕ) (hD : 0 < D) (hndvd : M % D ≠ 0) :
    ⌈(M : ℚ) / (D : ℚ)⌉ = ((M / D : ℕ) : ℤ) + 1 := by
  have hD0 : (0 : ℚ) < D := by exact_mod_cast hD
  rw [Int.ceil_eq_iff]
  constructor
  · have h1 := Nat.div_add_mod M D
    have h3 : (M / D) * D = D * (M / D) := mul_comm _ _
    have h4 : (M / D) * D < M := by omega
    have h5 : ((M / D : ℕ) : ℚ) < (M : ℚ) / D := by
      rw [lt_div_iff₀ hD0]
      exact_mod_cast h4
    have h6 : ((((M / D : ℕ) : ℤ) + 1 : ℤ) : ℚ) - 1 = ((M / D : ℕ) : ℚ) := by
      rw [Int.cast_add, Int.cast_one, Int.cast_natCast]
      ring
    rw [h6]
    exact h5
  · rw [div_le_iff₀ hD0]
    have h1 := Nat.div_add_mod M D
    have h2 : M % D < D := Nat.mod_lt _ hD
    have h3 : (M / D + 1) * D = D * (M / D) + D := by ring
    have h4 : M ≤ (M / D + 1) * D := by omega
    push_cast
    exact_mod_cast h4

/-! ### Core computations for the mid-range branch of Floor/Ceiling. -/

theorem pred_pow_div (mb k : ℕ) (hk : k ≤ mb) : (2 ^ mb - 1) / 2 ^ k = 2 ^ (mb - k) - 1 := by
  have := mask_shift mb k hk
  rwa [Nat.shiftRight_eq_div_pow] at this

theorem pow_add_mod (mb d m : ℕ) (hdmb : d ≤ mb) : (2 ^ mb + m) % 2 ^ d = m % 2 ^ d := by
  obtain ⟨c, hc⟩ := pow_dvd_pow 2 hdmb
  rw [hc, Nat.mul_add_mod]

theorem zpow_branch3 (mb eb e d : ℕ) (hd : d = mb - (e - fBias eb)) (hbias : fBias eb ≤ e)
    (hklt : e - fBias eb < mb) :
    (2 : ℚ) ^ ((e : ℤ) - fBias eb - mb) = (((2 ^ d : ℕ) : ℚ))⁻¹ := by
  have hE : (e : ℤ) - fBias eb - mb = -((d : ℕ) : ℤ) := by
    rw [hd, Nat.cast_sub (show e - fBias eb ≤ mb by omega), Nat.cast_sub hbias]
    ring
  rw [hE, zpow_neg, zpow_natCast]
  norm_cast

theorem fVal_branch3 (mb eb s e m d : ℕ) (hs : s < 2) (he : e < 2 ^ eb) (hm : m < 2 ^ mb)
    (he1 : 1 ≤ e) (hd : d = mb - (e - fBias eb)) (hbias : fBias eb ≤ e)
    (hklt : e - fBias eb < mb) :
    fVal mb eb (s * 2 ^ (mb + eb) + e * 2 ^ mb + m) =
      (if s = 1 then (-1 : ℚ) else 1) * ((2 ^ mb + m : ℕ) : ℚ) * (((2 ^ d : ℕ) : ℚ))⁻¹ := by
  rw [fVal_fields mb eb s e m hs he hm he1, zpow_branch3 mb eb e d hd hbias hklt]

/-- Clearing the low `d` mantissa bits truncates the magnitude to
`(2^mb + m) / 2^d` (an exact multiple of the unit in the last kept place). -/
theorem core_trunc (mb eb s e m d : ℕ) (hs : s < 2) (he : e < 2 ^ eb) (hm : m < 2 ^ mb)
    (he1 : 1 ≤ e) (hd : d = mb - (e - fBias eb)) (hbias : fBias eb ≤ e)
    (hklt : e - fBias eb < mb) :
    s * 2 ^ (mb + eb) + e * 2 ^ mb + m - m % 2 ^ d < 2 ^ (mb + eb + 1) ∧
      fExp mb eb (s * 2 ^ (mb + eb) + e * 2 ^ mb + m - m % 2 ^ d) = e ∧
      fVal mb eb (s * 2 ^ (mb + eb) + e * 2 ^ mb + m - m % 2 ^ d) =
        (if s = 1 then (-1 : ℚ) else 1) * (((2 ^ mb + m) / 2 ^ d : ℕ) : ℚ) := by
  have hdmb : d ≤ mb := by omega
  have hmodle : m % 2 ^ d ≤ m := Nat.mod_le _ _
  have hr : s * 2 ^ (mb + eb) + e * 2 ^ mb + m - m % 2 ^ d
      = s * 2 ^ (mb + eb) + e * 2 ^ mb + (m - m % 2 ^ d) := by omega
  have hm2 : m - m % 2 ^ d < 2 ^ mb := by omega
  rw [hr]
  obtain ⟨hf1, hf2, hf3⟩ := fields_decode mb eb s e (m - m % 2 ^ d) hs he hm2
  refine ⟨fields_bound mb eb s e _ hs he hm2, hf2, ?_⟩
  rw [fVal_branch3 mb eb s e (m - m % 2 ^ d) d hs he hm2 he1 hd hbias hklt]
  have hMdm := pow_add_mod mb d m hdmb
  have hdm := Nat.div_add_mod (2 ^ mb + m) (2 ^ d)
  have hnum : 2 ^ mb + (m - m % 2 ^ d) = ((2 ^ mb + m) / 2 ^ d) * 2 ^ d := by
    have hcomm : ((2 ^ mb + m) / 2 ^ d) * 2 ^ d = 2 ^ d * ((2 ^ mb + m) / 2 ^ d) :=
      mul_comm _ _
    omega
  rw [hnum]
  have h2d : ((2 ^ d : ℕ) : ℚ) ≠ 0 := by positivity
  push_cast
  field_simp

/-- Adding one unit in the last kept place and clearing the low `d` mantissa
bits rounds the magnitude away from zero to `(2^mb + m) / 2^d + 1`; the carry
into the exponent field stays below the exponent of infinities. -/
theorem core_round (mb eb s e m d : ℕ) (hs : s < 2) (he2 : 2 ≤ eb) (he : e < 2 ^ eb)
    (hm : m < 2 ^ mb) (he1 : 1 ≤ e) (hd : d = mb - (e - fBias eb)) (hbias : fBias eb ≤ e)
    (hklt : e - fBias eb < mb) (hsize : mb < 2 ^ (eb - 1)) (hmod : m % 2 ^ d ≠ 0) :
    s * 2 ^ (mb + eb) + e * 2 ^ mb + m + 2 ^ d - m % 2 ^ d < 2 ^ (mb + eb + 1) ∧
      fExp mb eb (s * 2 ^ (mb + eb) + e * 2 ^ mb + m + 2 ^ d - m % 2 ^ d) < fEmax eb ∧
      fVal mb eb (s * 2 ^ (mb + eb) + e * 2 ^ mb + m + 2 ^ d - m % 2 ^ d) =
        (if s = 1 then (-1 : ℚ) else 1) * (((2 ^ mb + m) / 2 ^ d + 1 : ℕ) : ℚ) := by
  have hdmb : d ≤ mb := by omega
  have hd1 : 1 ≤ d := by omega
  have hmodle : m % 2 ^ d ≤ m := Nat.mod_le _ _
  have hemax := fBias_mb_lt_emax mb eb he2 hsize
  have hdivle : m / 2 ^ d ≤ 2 ^ (mb - d) - 1 := by
    have h1 : m ≤ 2 ^ mb - 1 := by omega
    have h2 := Nat.div_le_div_right (c := 2 ^ d) h1
    rwa [pred_pow_div mb d hdmb] at h2
  have hsplit := Nat.div_add_mod m (2 ^ d)
  have hmulle : 2 ^ d * (m / 2 ^ d) ≤ 2 ^ d * (2 ^ (mb - d) - 1) :=
    Nat.mul_le_mul_left _ hdivle
  have hpowsub : 2 ^ d * (2 ^ (mb - d) - 1) + 2 ^ d = 2 ^ mb := by
    have h1 : 2 ^ d * (2 ^ (mb - d) - 1) = 2 ^ d * 2 ^ (mb - d) - 2 ^ d := by
      rw [mul_comm, Nat.sub_one_mul, mul_comm]
    have h2 : 2 ^ d * 2 ^ (mb - d) = 2 ^ mb := by
      rw [← pow_add]
      congr 1
      omega
    have h3 : 2 ^ d ≤ 2 ^ d * 2 ^ (mb - d) :=
      Nat.le_mul_of_pos_right _ (Nat.two_pow_pos _)
    omega
  have hkey : m + 2 ^ d - m % 2 ^ d ≤ 2 ^ mb := by omega
  have hMdm := pow_add_mod mb d m hdmb
  have hdm := Nat.div_add_mod (2 ^ mb + m) (2 ^ d)
  by_cases hcarry : m + 2 ^ d - m % 2 ^ d < 2 ^ mb
  · have hr : s * 2 ^ (mb + eb) + e * 2 ^ mb + m + 2 ^ d - m % 2 ^ d
        = s * 2 ^ (mb + eb) + e * 2 ^ mb + (m + 2 ^ d - m % 2 ^ d) := by omega
    rw [hr]
    obtain ⟨hf1, hf2, hf3⟩ := fields_decode mb eb s e (m + 2 ^ d - m % 2 ^ d) hs he hcarry
    refine ⟨fields_bound mb eb s e _ hs he hcarry, ?_, ?_⟩
    · rw [hf2]
      omega
    · rw [fVal_branch3 mb eb s e (m + 2 ^ d - m % 2 ^ d) d hs he hcarry he1 hd hbias hklt]
      have hnum : 2 ^ mb + (m + 2 ^ d - m % 2 ^ d) = ((2 ^ mb + m) / 2 ^ d + 1) * 2 ^ d := by
        have hcomm : ((2 ^ mb + m) / 2 ^ d) * 2 ^ d = 2 ^ d * ((2 ^ mb + m) / 2 ^ d) :=
          mul_comm _ _
        have hexpand : ((2 ^ mb + m) / 2 ^ d + 1) * 2 ^ d
            = ((2 ^ mb + m) / 2 ^ d) * 2 ^ d + 2 ^ d := by ring
        omega
      rw [hnum]
      have h2d : ((2 ^ d : ℕ) : ℚ) ≠ 0 := by positivity
      push_cast
      field_simp
      split_ifs <;> ring
  · have hcar : m + 2 ^ d - m % 2 ^ d = 2 ^ mb := by omega
    have hr : s * 2 ^ (mb + eb) + e * 2 ^ mb + m + 2 ^ d - m % 2 ^ d
        = s * 2 ^ (mb + eb) + (e + 1) * 2 ^ mb + 0 := by
      have hmul : (e + 1) * 2 ^ mb = e * 2 ^ mb + 2 ^ mb := by ring
      omega
    rw [hr]
    have he1b : e + 1 < 2 ^ eb := by
      unfold fEmax at hemax
      omega
    obtain ⟨hf1, hf2, hf3⟩ :=
      fields_decode mb eb s (e + 1) 0 hs he1b (Nat.two_pow_pos mb)
    refine ⟨fields_bound mb eb s (e + 1) 0 hs he1b (Nat.two_pow_pos mb), ?_, ?_⟩
    · rw [hf2]
      omega
    · rw [fVal_fields mb eb s (e + 1) 0 hs he1b (Nat.two_pow_pos mb) (by omega)]
      have hMdiv : (2 ^ mb + m) / 2 ^ d = 2 ^ (mb - d + 1) - 1 := by
        have hpow1 : 2 ^ d * (2 ^ (mb - d + 1) - 1) = 2 ^ (mb + 1) - 2 ^ d := by
          rw [mul_comm, Nat.sub_one_mul, ← pow_add]
          rw [show mb - d + 1 + d = mb + 1 from by omega]
        have hp : 2 ^ (mb + 1) = 2 ^ mb + 2 ^ mb := by rw [pow_succ]; ring
        have h2 : 2 ^ d * ((2 ^ mb + m) / 2 ^ d) = 2 ^ d * (2 ^ (mb - d + 1) - 1) := by
          omega
        exact Nat.eq_of_mul_eq_mul_left (Nat.two_pow_pos d) h2
      rw [hMdiv]
      rw [show 2 ^ (mb - d + 1) - 1 + 1 = 2 ^ (mb - d + 1) from by
        have := Nat.one_le_two_pow (n := mb - d + 1); omega]
      rw [Nat.add_zero]
      have hE : ((e + 1 : ℕ) : ℤ) - fBias eb - mb = ((mb - d + 1 : ℕ) : ℤ) - mb := by
        have h2z : (d : ℤ) = (mb : ℤ) - ((e : ℤ) - fBias eb) := by
          rw [hd, Nat.cast_sub (show e - fBias eb ≤ mb by omega), Nat.cast_sub hbias]
        have h1z : ((mb - d + 1 : ℕ) : ℤ) = (mb : ℤ) - d + 1 := by
          push_cast [Nat.cast_sub hdmb]
          ring
        push_cast
        omega
      rw [hE]
      have hzp : ((2 ^ mb : ℕ) : ℚ) * (2 : ℚ) ^ (((mb - d + 1 : ℕ) : ℤ) - (mb : ℤ))
          = ((2 ^ (mb - d + 1) : ℕ) : ℚ) := by
        rw [Nat.cast_pow, Nat.cast_pow]
        rw [show ((2 : ℕ) : ℚ) ^ mb = (2 : ℚ) ^ ((mb : ℕ) : ℤ) from by
          rw [zpow_natCast]; norm_cast]
        rw [show ((2 : ℕ) : ℚ) ^ (mb - d + 1) = (2 : ℚ) ^ (((mb - d + 1 : ℕ)) : ℤ) from by
          rw [zpow_natCast]; norm_cast]
        rw [← zpow_add₀ (by norm_num : (2 : ℚ) ≠ 0)]
        congr 1
        ring
      rw [mul_assoc, hzp]

/-- `Floor` is exact: on every finite pattern it returns a finite pattern
denoting `⌊fVal n⌋`. -/
theorem floor_correct (mb eb : ℕ) (hmb : 1 ≤ mb) (heb : 2 ≤ eb) (hsize : mb < 2 ^ (eb - 1))
    (n : ℕ) (hn : n < 2 ^ (mb + eb + 1)) (hfin : fExp mb eb n < fEmax eb) :
    floorBits mb eb n < 2 ^ (mb + eb + 1) ∧
      fExp mb eb (floorBits mb eb n) < fEmax eb ∧
      fVal mb eb (floorBits mb eb n) = ((⌊fVal mb eb n⌋ : ℤ) : ℚ) := by
  obtain ⟨hrec, hs, he, hm⟩ := fields_recompose mb eb n hn
  have hnan := fIsNaN_of_finite mb eb n hfin
  have hbias1 := fBias_one_le eb heb
  have hemax := fBias_mb_lt_emax mb eb heb hsize
  rw [floorBits_eq mb eb n (by omega)]
  by_cases h1 : (mb : ℤ) ≤ (fExp mb eb n : ℤ) - fBias eb
  · rw [if_pos h1]
    refine ⟨hn, hfin, ?_⟩
    have hble : fBias eb + mb ≤ fExp mb eb n := by omega
    have he1 : 1 ≤ fExp mb eb n := by omega
    have hEnat : (fExp mb eb n : ℤ) - fBias eb - mb
        = ((fExp mb eb n - fBias eb - mb : ℕ) : ℤ) := by
      rw [Nat.cast_sub (show mb ≤ fExp mb eb n - fBias eb by omega),
        Nat.cast_sub (show fBias eb ≤ fExp mb eb n by omega)]
    have hval : fVal mb eb n =
        (((if fSignBit mb eb n = 1 then (-1 : ℤ) else 1) *
          ((2 ^ mb + fMant mb n : ℕ) : ℤ) *
          2 ^ (fExp mb eb n - fBias eb - mb) : ℤ) : ℚ) := by
      conv_lhs => rw [hrec]
      rw [fVal_fields mb eb _ _ _ hs he hm he1]
      rw [hEnat, zpow_natCast]
      push_cast
      split_ifs <;> ring
    rw [hval, Int.floor_intCast]
  · rw [if_neg h1]
    by_cases h2 : (fExp mb eb n : ℤ) - (fBias eb : ℤ) < 0
    · rw [if_pos h2]
      have hesm : fExp mb eb n < fBias eb := by omega
      obtain ⟨hlow, hhigh⟩ := fVal_small mb eb n hmb heb hn hesm
      by_cases hneg : fLtZero mb eb n = true
      · rw [if_pos hneg]
        obtain ⟨hsgn, hmag⟩ := (fLtZero_iff mb eb n hnan).mp hneg
        have hvn := fVal_neg_of mb eb n hn hsgn hmag
        have hblt : fBias eb < 2 ^ eb := by
          unfold fBias fEmax at *
          omega
        have hpat : 2 ^ (mb + eb) + fBias eb * 2 ^ mb
            = 1 * 2 ^ (mb + eb) + fBias eb * 2 ^ mb + 0 := by ring
        obtain ⟨hf1, hf2, hf3⟩ :=
          fields_decode mb eb 1 (fBias eb) 0 (by omega) hblt (Nat.two_pow_pos mb)
        refine ⟨?_, ?_, ?_⟩
        · rw [hpat]
          exact fields_bound mb eb 1 (fBias eb) 0 (by omega) hblt (Nat.two_pow_pos mb)
        · rw [hpat, hf2]
          omega
        · rw [hpat]
          rw [fVal_fields mb eb 1 (fBias eb) 0 (by omega) hblt (Nat.two_pow_pos mb)
            (by omega)]
          have hfl : ⌊fVal mb eb n⌋ = -1 := by
            rw [Int.floor_eq_iff]
            constructor
            · push_cast
              linarith
            · push_cast
              linarith
          rw [hfl, Nat.add_zero]
          have hEz : ((fBias eb : ℕ) : ℤ) - fBias eb - mb = -((mb : ℕ) : ℤ) := by
            push_cast
            ring
          rw [hEz, zpow_neg, zpow_natCast]
          rw [Nat.cast_pow]
          push_cast
          field_simp
      · rw [if_neg hneg]
        have hge : 0 ≤ fVal mb eb n := by
          by_cases hs1 : fSignBit mb eb n = 1
          · have hmag0 : fMag mb eb n = 0 := by
              by_contra hc
              exact hneg ((fLtZero_iff mb eb n hnan).mpr ⟨hs1, hc⟩)
            rw [fVal_zero_of_mag_zero mb eb n hn hmag0]
          · exact fVal_nonneg_of mb eb n hs1
        refine ⟨Nat.two_pow_pos _, ?_, ?_⟩
        · have hz0 : fExp mb eb 0 = 0 := by
            unfold fExp
            simp
          rw [hz0]
          have h4 : 4 ≤ 2 ^ eb := by
            calc (4 : ℕ) = 2 ^ 2 := rfl
              _ ≤ 2 ^ eb := Nat.pow_le_pow_right (by norm_num) heb
          unfold fEmax
          omega
        · rw [fVal_zero_pattern]
          have hfl : ⌊fVal mb eb n⌋ = 0 := by
            rw [Int.floor_eq_iff]
            constructor
            · push_cast
              linarith
            · push_cast
              linarith
          rw [hfl]
          norm_num
    · rw [if_neg h2]
      have hbias : fBias eb ≤ fExp mb eb n := by omega
      have hklt : fExp mb eb n - fBias eb < mb := by omega
      set d := mb - (fExp mb eb n - fBias eb) with hdset
      have he1 : 1 ≤ fExp mb eb n := by omega
      have hdmb : d ≤ mb := by omega
      have h2dpos : (0 : ℕ) < 2 ^ d := Nat.two_pow_pos d
      have hmant : fMant mb n % 2 ^ d = n % 2 ^ d := by
        rw [fMant, Nat.mod_mod_of_dvd n (pow_dvd_pow 2 hdmb)]
      have hvaln : fVal mb eb n =
          (if fSignBit mb eb n = 1 then (-1 : ℚ) else 1) *
            ((2 ^ mb + fMant mb n : ℕ) : ℚ) * (((2 ^ d : ℕ) : ℚ))⁻¹ := by
        conv_lhs => rw [hrec]
        exact fVal_branch3 mb eb _ _ _ d hs he hm he1 hdset hbias hklt
      by_cases hz : fMant mb n % 2 ^ d = 0
      · rw [if_pos hz]
        refine ⟨hn, hfin, ?_⟩
        have hMmod : (2 ^ mb + fMant mb n) % 2 ^ d = 0 := by
          rw [pow_add_mod mb d _ hdmb]
          exact hz
        have hdvd : 2 ^ d ∣ 2 ^ mb + fMant mb n := Nat.dvd_of_mod_eq_zero hMmod
        have hsuff : ∃ z : ℤ, fVal mb eb n = (z : ℚ) := by
          refine ⟨(if fSignBit mb eb n = 1 then (-1 : ℤ) else 1) *
            (((2 ^ mb + fMant mb n) / 2 ^ d : ℕ) : ℤ), ?_⟩
          rw [hvaln]
          have hMq : ((2 ^ mb + fMant mb n : ℕ) : ℚ) * (((2 ^ d : ℕ) : ℚ))⁻¹
              = (((2 ^ mb + fMant mb n) / 2 ^ d : ℕ) : ℚ) := by
            rw [Nat.cast_div hdvd (show ((2 ^ d : ℕ) : ℚ) ≠ 0 by positivity),
              div_eq_mul_inv]
          rw [mul_assoc, hMq, Int.cast_mul, Int.cast_natCast]
          congr 1
          split_ifs <;> norm_num
        obtain ⟨z, hz2⟩ := hsuff
        rw [hz2, Int.floor_intCast]
      · rw [if_neg hz]
        have hmagne : fMag mb eb n ≠ 0 := by
          rw [fMag_eq mb eb n hn]
          intro hc
          have hpos : 0 < fExp mb eb n * 2 ^ mb :=
            Nat.mul_pos (by omega) (Nat.two_pow_pos mb)
          omega
        have he1b : fExp mb eb n + 1 < 2 ^ eb := by
          unfold fEmax at hemax
          omega
        by_cases hneg : fLtZero mb eb n = true
        · rw [if_pos hneg]
          have hsgn := ((fLtZero_iff mb eb n hnan).mp hneg).1
          have hnlt : n + 2 ^ d < 2 ^ (mb + eb + 1) := by
            have hfb := fields_bound mb eb (fSignBit mb eb n) (fExp mb eb n + 1)
              (fMant mb n) hs he1b hm
            have hd2 : 2 ^ d ≤ 2 ^ mb := Nat.pow_le_pow_right (by norm_num) hdmb
            have hmul : (fExp mb eb n + 1) * 2 ^ mb = fExp mb eb n * 2 ^ mb + 2 ^ mb := by
              ring
            omega
          have hmask := and_xor_mask (mb + eb + 1) d (n + 2 ^ d) (by omega) hnlt
          have hmod2 : (n + 2 ^ d) % 2 ^ d = fMant mb n % 2 ^ d := by
            rw [Nat.add_mod_right]
            exact hmant.symm
          rw [hmask, hmod2]
          have hmodle : fMant mb n % 2 ^ d ≤ fMant mb n := Nat.mod_le _ _
          have hBig : n + 2 ^ d - fMant mb n % 2 ^ d
              = fSignBit mb eb n * 2 ^ (mb + eb) + fExp mb eb n * 2 ^ mb + fMant mb n
                + 2 ^ d - fMant mb n % 2 ^ d := by omega
          rw [hBig]
          obtain ⟨hc1, hc2, hc3⟩ :=
            core_round mb eb _ _ _ d hs heb he hm he1 hdset hbias hklt hsize hz
          refine ⟨hc1, hc2, ?_⟩
          rw [hc3, if_pos hsgn]
          have hfl : ⌊fVal mb eb n⌋ = -((((2 ^ mb + fMant mb n) / 2 ^ d : ℕ) : ℤ) + 1) := by
            rw [hvaln, if_pos hsgn]
            have hrw : (-1 : ℚ) * ((2 ^ mb + fMant mb n : ℕ) : ℚ) * (((2 ^ d : ℕ) : ℚ))⁻¹
                = -(((2 ^ mb + fMant mb n : ℕ) : ℚ) / ((2 ^ d : ℕ) : ℚ)) := by
              ring
            rw [hrw, Int.floor_neg]
            rw [ceil_natCast_div _ _ h2dpos (by rw [pow_add_mod mb d _ hdmb]; exact hz)]
          rw [hfl, Int.cast_neg, Int.cast_add, Int.cast_natCast, Int.cast_one]
          push_cast
          ring
        · rw [if_neg hneg]
          have hsgn : fSignBit mb eb n ≠ 1 := by
            intro hc
            exact hneg ((fLtZero_iff mb eb n hnan).mpr ⟨hc, hmagne⟩)
          have hmask := and_xor_mask (mb + eb + 1) d n (by omega) hn
          rw [hmask, ← hmant]
          have hmodle : fMant mb n % 2 ^ d ≤ fMant mb n := Nat.mod_le _ _
          have hBig : n - fMant mb n % 2 ^ d
              = fSignBit mb eb n * 2 ^ (mb + eb) + fExp mb eb n * 2 ^ mb + fMant mb n
                - fMant mb n % 2 ^ d := by omega
          rw [hBig]
          obtain ⟨hc1, hc2, hc3⟩ :=
            core_trunc mb eb _ _ _ d hs he hm he1 hdset hbias hklt
          refine ⟨hc1, by rw [hc2]; omega, ?_⟩
          rw [hc3, if_neg hsgn]
          have hfl : ⌊fVal mb eb n⌋ = (((2 ^ mb + fMant mb n) / 2 ^ d : ℕ) : ℤ) := by
            rw [hvaln, if_neg hsgn]
            have hrw : (1 : ℚ) * ((2 ^ mb + fMant mb n : ℕ) : ℚ) * (((2 ^ d : ℕ) : ℚ))⁻¹
                = ((2 ^ mb + fMant mb n : ℕ) : ℚ) / ((2 ^ d : ℕ) : ℚ) := by
              ring
            rw [hrw, floor_natCast_div _ _ h2dpos]
          rw [hfl, Int.cast_natCast]
          ring

theorem pos_sgn_mul_pos {M : ℚ} (hM : 0 < M) (E : ℤ) : 0 < 1 * M * (2 : ℚ) ^ E := by
  have h := zpow_pos (show (0 : ℚ) < 2 by norm_num) E
  nlinarith

theorem neg_sgn_mul_nonpos {M : ℚ} (hM : 0 ≤ M) (E : ℤ) : -1 * M * (2 : ℚ) ^ E ≤ 0 := by
  have h := zpow_pos (show (0 : ℚ) < 2 by norm_num) E
  nlinarith

theorem fVal_pos_of (mb eb n : ℕ) (hn : n < 2 ^ (mb + eb + 1)) (hs : fSignBit mb eb n = 0)
    (hmag : fMag mb eb n ≠ 0) : 0 < fVal mb eb n := by
  have hmageq := fMag_eq mb eb n hn
  unfold fVal
  rw [hs, if_neg (by norm_num)]
  have hM : 0 < (if fExp mb eb n = 0 then fMant mb n else 2 ^ mb + fMant mb n) := by
    by_cases he : fExp mb eb n = 0
    · rw [if_pos he]
      rw [he] at hmageq
      simp at hmageq
      omega
    · rw [if_neg he]
      have := Nat.two_pow_pos mb
      omega
  have hMq : (0 : ℚ) <
      ((if fExp mb eb n = 0 then fMant mb n else 2 ^ mb + fMant mb n : ℕ) : ℚ) := by
    exact_mod_cast hM
  exact pos_sgn_mul_pos hMq _

theorem fVal_nonpos_of (mb eb n : ℕ) (hs : fSignBit mb eb n = 1) : fVal mb eb n ≤ 0 := by
  unfold fVal
  rw [hs, if_pos rfl]
  exact neg_sgn_mul_nonpos (by positivity) _

/-- `Ceiling` is exact: on every finite pattern it returns a finite pattern
denoting `⌈fVal n⌉`. -/
theorem ceil_correct (mb eb : ℕ) (hmb : 1 ≤ mb) (heb : 2 ≤ eb) (hsize : mb < 2 ^ (eb - 1))
    (n : ℕ) (hn : n < 2 ^ (mb + eb + 1)) (hfin : fExp mb eb n < fEmax eb) :
    ceilBits mb eb n < 2 ^ (mb + eb + 1) ∧
      fExp mb eb (ceilBits mb eb n) < fEmax eb ∧
      fVal mb eb (ceilBits mb eb n) = ((⌈fVal mb eb n⌉ : ℤ) : ℚ) := by
  obtain ⟨hrec, hs, he, hm⟩ := fields_recompose mb eb n hn
  have hnan := fIsNaN_of_finite mb eb n hfin
  have hbias1 := fBias_one_le eb heb
  have hemax := fBias_mb_lt_emax mb eb heb hsize
  rw [ceilBits_eq mb eb n (by omega)]
  by_cases h1 : (mb : ℤ) ≤ (fExp mb eb n : ℤ) - fBias eb
  · rw [if_pos h1]
    refine ⟨hn, hfin, ?_⟩
    have hble : fBias eb + mb ≤ fExp mb eb n := by omega
    have he1 : 1 ≤ fExp mb eb n := by omega
    have hEnat : (fExp mb eb n : ℤ) - fBias eb - mb
        = ((fExp mb eb n - fBias eb - mb : ℕ) : ℤ) := by
      rw [Nat.cast_sub (show mb ≤ fExp mb eb n - fBias eb by omega),
        Nat.cast_sub (show fBias eb ≤ fExp mb eb n by omega)]
    have hval : fVal mb eb n =
        (((if fSignBit mb eb n = 1 then (-1 : ℤ) else 1) *
          ((2 ^ mb + fMant mb n : ℕ) : ℤ) *
          2 ^ (fExp mb eb n - fBias eb - mb) : ℤ) : ℚ) := by
      conv_lhs => rw [hrec]
      rw [fVal_fields mb eb _ _ _ hs he hm he1]
      rw [hEnat, zpow_natCast]
      push_cast
      split_ifs <;> ring
    rw [hval, Int.ceil_intCast]
  · rw [if_neg h1]
    by_cases h2 : (fExp mb eb n : ℤ) - (fBias eb : ℤ) < 0
    · rw [if_pos h2]
      have hesm : fExp mb eb n < fBias eb := by omega
      obtain ⟨hlow, hhigh⟩ := fVal_small mb eb n hmb heb hn hesm
      by_cases hpos : fGtZero mb eb n = true
      · rw [if_pos hpos]
        obtain ⟨hsgn, hmag⟩ := (fGtZero_iff mb eb n hnan).mp hpos
        have hvp := fVal_pos_of mb eb n hn hsgn hmag
        have hblt : fBias eb < 2 ^ eb := by
          unfold fBias fEmax at *
          omega
        have hpat : fBias eb * 2 ^ mb = 0 * 2 ^ (mb + eb) + fBias eb * 2 ^ mb + 0 := by
          ring
        obtain ⟨hf1, hf2, hf3⟩ :=
          fields_decode mb eb 0 (fBias eb) 0 (by omega) hblt (Nat.two_pow_pos mb)
        refine ⟨?_, ?_, ?_⟩
        · rw [hpat]
          exact fields_bound mb eb 0 (fBias eb) 0 (by omega) hblt (Nat.two_pow_pos mb)
        · rw [hpat, hf2]
          omega
        · rw [hpat]
          rw [fVal_fields mb eb 0 (fBias eb) 0 (by omega) hblt (Nat.two_pow_pos mb)
            (by omega)]
          have hcl : ⌈fVal mb eb n⌉ = 1 := by
            rw [Int.ceil_eq_iff]
            constructor
            · push_cast
              linarith
            · push_cast
              linarith
          rw [hcl, Nat.add_zero]
          have hEz : ((fBias eb : ℕ) : ℤ) - fBias eb - mb = -((mb : ℕ) : ℤ) := by
            push_cast
            ring
          rw [hEz, zpow_neg, zpow_natCast]
          rw [Nat.cast_pow]
          push_cast
          field_simp
      · rw [if_neg hpos]
        have hle : fVal mb eb n ≤ 0 := by
          by_cases hs0 : fSignBit mb eb n = 0
          · have hmag0 : fMag mb eb n = 0 := by
              by_contra hc
              exact hpos ((fGtZero_iff mb eb n hnan).mpr ⟨hs0, hc⟩)
            rw [fVal_zero_of_mag_zero mb eb n hn hmag0]
          · have hs1 : fSignBit mb eb n = 1 := by omega
            exact fVal_nonpos_of mb eb n hs1
        refine ⟨Nat.two_pow_pos _, ?_, ?_⟩
        · have hz0 : fExp mb eb 0 = 0 := by
            unfold fExp
            simp
          rw [hz0]
          have h4 : 4 ≤ 2 ^ eb := by
            calc (4 : ℕ) = 2 ^ 2 := rfl
              _ ≤ 2 ^ eb := Nat.pow_le_pow_right (by norm_num) heb
          unfold fEmax
          omega
        · rw [fVal_zero_pattern]
          have hcl : ⌈fVal mb eb n⌉ = 0 := by
            rw [Int.ceil_eq_iff]
            constructor
            · push_cast
              linarith
            · push_cast
              linarith
          rw [hcl]
          norm_num
    · rw [if_neg h2]
      have hbias : fBias eb ≤ fExp mb eb n := by omega
      have hklt : fExp mb eb n - fBias eb < mb := by omega
      set d := mb - (fExp mb eb n - fBias eb) with hdset
      have he1 : 1 ≤ fExp mb eb n := by omega
      have hdmb : d ≤ mb := by omega
      have h2dpos : (0 : ℕ) < 2 ^ d := Nat.two_pow_pos d
      have hmant : fMant mb n % 2 ^ d = n % 2 ^ d := by
        rw [fMant, Nat.mod_mod_of_dvd n (pow_dvd_pow 2 hdmb)]
      have hvaln : fVal mb eb n =
          (if fSignBit mb eb n = 1 then (-1 : ℚ) else 1) *
            ((2 ^ mb + fMant mb n : ℕ) : ℚ) * (((2 ^ d : ℕ) : ℚ))⁻¹ := by
        conv_lhs => rw [hrec]
        exact fVal_branch3 mb eb _ _ _ d hs he hm he1 hdset hbias hklt
      by_cases hz : fMant mb n % 2 ^ d = 0
      · rw [if_pos hz]
        refine ⟨hn, hfin, ?_⟩
        have hMmod : (2 ^ mb + fMant mb n) % 2 ^ d = 0 := by
          rw [pow_add_mod mb d _ hdmb]
          exact hz
        have hdvd : 2 ^ d ∣ 2 ^ mb + fMant mb n := Nat.dvd_of_mod_eq_zero hMmod
        have hsuff : ∃ z : ℤ, fVal mb eb n = (z : ℚ) := by
          refine ⟨(if fSignBit mb eb n = 1 then (-1 : ℤ) else 1) *
            (((2 ^ mb + fMant mb n) / 2 ^ d : ℕ) : ℤ), ?_⟩
          rw [hvaln]
          have hMq : ((2 ^ mb + fMant mb n : ℕ) : ℚ) * (((2 ^ d : ℕ) : ℚ))⁻¹
              = (((2 ^ mb + fMant mb n) / 2 ^ d : ℕ) : ℚ) := by
            rw [Nat.cast_div hdvd (show ((2 ^ d : ℕ) : ℚ) ≠ 0 by positivity),
              div_eq_mul_inv]
          rw [mul_assoc, hMq, Int.cast_mul, Int.cast_natCast]
          congr 1
          split_ifs <;> norm_num
        obtain ⟨z, hz2⟩ := hsuff
        rw [hz2, Int.ceil_intCast]
      · rw [if_neg hz]
        have hmagne : fMag mb eb n ≠ 0 := by
          rw [fMag_eq mb eb n hn]
          intro hc
          have hpos2 : 0 < fExp mb eb n * 2 ^ mb :=
            Nat.mul_pos (by omega) (Nat.two_pow_pos mb)
          omega
        have he1b : fExp mb eb n + 1 < 2 ^ eb := by
          unfold fEmax at hemax
          omega
        by_cases hpos : fGtZero mb eb n = true
        · rw [if_pos hpos]
          have hsgn := ((fGtZero_iff mb eb n hnan).mp hpos).1
          have hsgnne : fSignBit mb eb n ≠ 1 := by omega
          have hnlt : n + 2 ^ d < 2 ^ (mb + eb + 1) := by
            have hfb := fields_bound mb eb (fSignBit mb eb n) (fExp mb eb n + 1)
              (fMant mb n) hs he1b hm
            have hd2 : 2 ^ d ≤ 2 ^ mb := Nat.pow_le_pow_right (by norm_num) hdmb
            have hmul : (fExp mb eb n + 1) * 2 ^ mb = fExp mb eb n * 2 ^ mb + 2 ^ mb := by
              ring
            omega
          have hmask := and_xor_mask (mb + eb + 1) d (n + 2 ^ d) (by omega) hnlt
          have hmod2 : (n + 2 ^ d) % 2 ^ d = fMant mb n % 2 ^ d := by
            rw [Nat.add_mod_right]
            exact hmant.symm
          rw [hmask, hmod2]
          have hmodle : fMant mb n % 2 ^ d ≤ fMant mb n := Nat.mod_le _ _
          have hBig : n + 2 ^ d - fMant mb n % 2 ^ d
              = fSignBit mb eb n * 2 ^ (mb + eb) + fExp mb eb n * 2 ^ mb + fMant mb n
                + 2 ^ d - fMant mb n % 2 ^ d := by omega
          rw [hBig]
          obtain ⟨hc1, hc2, hc3⟩ :=
            core_round mb eb _ _ _ d hs heb he hm he1 hdset hbias hklt hsize hz
          refine ⟨hc1, hc2, ?_⟩
          rw [hc3, if_neg hsgnne]
          have hcl : ⌈fVal mb eb n⌉ = (((2 ^ mb + fMant mb n) / 2 ^ d : ℕ) : ℤ) + 1 := by
            rw [hvaln, if_neg hsgnne]
            have hrw : (1 : ℚ) * ((2 ^ mb + fMant mb n : ℕ) : ℚ) * (((2 ^ d : ℕ) : ℚ))⁻¹
                = ((2 ^ mb + fMant mb n : ℕ) : ℚ) / ((2 ^ d : ℕ) : ℚ) := by
              ring
            rw [hrw]
            rw [ceil_natCast_div _ _ h2dpos (by rw [pow_add_mod mb d _ hdmb]; exact hz)]
          rw [hcl, Int.cast_add, Int.cast_natCast, Int.cast_one]
          push_cast
          ring
        · rw [if_neg hpos]
          have hsgn : fSignBit mb eb n = 1 := by
            by_contra hc
            have hs0 : fSignBit mb eb n = 0 := by omega
            exact hpos ((fGtZero_iff mb eb n hnan).mpr ⟨hs0, hmagne⟩)
          have hmask := and_xor_mask (mb + eb + 1) d n (by omega) hn
          rw [hmask, ← hmant]
          have hmodle : fMant mb n % 2 ^ d ≤ fMant mb n := Nat.mod_le _ _
          have hBig : n - fMant mb n % 2 ^ d
              = fSignBit mb eb n * 2 ^ (mb + eb) + fExp mb eb n * 2 ^ mb + fMant mb n
                - fMant mb n % 2 ^ d := by omega
          rw [hBig]
          obtain ⟨hc1, hc2, hc3⟩ :=
            core_trunc mb eb _ _ _ d hs he hm he1 hdset hbias hklt
          refine ⟨hc1, by rw [hc2]; omega, ?_⟩
          rw [hc3, if_pos hsgn]
          have hcl : ⌈fVal mb eb n⌉ = -(((2 ^ mb + fMant mb n) / 2 ^ d : ℕ) : ℤ) := by
            rw [hvaln, if_pos hsgn]
            have hrw : (-1 : ℚ) * ((2 ^ mb + fMant mb n : ℕ) : ℚ) * (((2 ^ d : ℕ) : ℚ))⁻¹
                = -(((2 ^ mb + fMant mb n : ℕ) : ℚ) / ((2 ^ d : ℕ) : ℚ)) := by
              ring
            rw [hrw, Int.ceil_neg, floor_natCast_div _ _ h2dpos]
          rw [hcl, Int.cast_neg, Int.cast_natCast]
          ring

/-! ### Sign flip and IEEE comparison assembly. -/

theorem fNeg_fields (mb eb n : ℕ) (hn : n < 2 ^ (mb + eb + 1)) :
    fNeg mb eb n < 2 ^ (mb + eb + 1) ∧
      fSignBit mb eb (fNeg mb eb n) = 1 - fSignBit mb eb n ∧
      fExp mb eb (fNeg mb eb n) = fExp mb eb n ∧
      fMant mb (fNeg mb eb n) = fMant mb n := by
  obtain ⟨hrec, hs, he, hm⟩ := fields_recompose mb eb n hn
  unfold fNeg
  by_cases hlt : n < 2 ^ (mb + eb)
  · rw [if_pos hlt]
    have hs0 : fSignBit mb eb n = 0 := by
      unfold fSignBit
      exact Nat.div_eq_of_lt hlt
    rw [hs0] at hrec
    have hpat : n + 2 ^ (mb + eb)
        = 1 * 2 ^ (mb + eb) + fExp mb eb n * 2 ^ mb + fMant mb n := by omega
    obtain ⟨hf1, hf2, hf3⟩ := fields_decode mb eb 1 (fExp mb eb n) (fMant mb n)
      (by omega) he hm
    rw [hpat]
    exact ⟨fields_bound mb eb 1 _ _ (by omega) he hm, by rw [hf1, hs0], hf2, hf3⟩
  · rw [if_neg hlt]
    have hs1 : fSignBit mb eb n = 1 := by
      have h1 : 1 ≤ n / 2 ^ (mb + eb) :=
        (Nat.one_le_div_iff (Nat.two_pow_pos (mb + eb))).mpr (le_of_not_lt hlt)
      unfold fSignBit at *
      omega
    rw [hs1] at hrec
    have hpat : n - 2 ^ (mb + eb)
        = 0 * 2 ^ (mb + eb) + fExp mb eb n * 2 ^ mb + fMant mb n := by omega
    obtain ⟨hf1, hf2, hf3⟩ := fields_decode mb eb 0 (fExp mb eb n) (fMant mb n)
      (by omega) he hm
    rw [hpat]
    exact ⟨fields_bound mb eb 0 _ _ (by omega) he hm, by rw [hf1, hs1], hf2, hf3⟩

theorem fVal_fNeg (mb eb n : ℕ) (hn : n < 2 ^ (mb + eb + 1)) :
    fVal mb eb (fNeg mb eb n) = -fVal mb eb n := by
  obtain ⟨hb, hsgn, hexp, hmant⟩ := fNeg_fields mb eb n hn
  obtain ⟨hrec, hs, he, hm⟩ := fields_recompose mb eb n hn
  unfold fVal
  rw [hsgn, hexp, hmant]
  rcases (by omega : fSignBit mb eb n = 0 ∨ fSignBit mb eb n = 1) with h | h
  · rw [h]
    norm_num
    split_ifs <;> ring
  · rw [h]
    norm_num
    split_ifs <;> ring

theorem fIsNaN_fNeg (mb eb n : ℕ) (hn : n < 2 ^ (mb + eb + 1)) :
    fIsNaN mb eb (fNeg mb eb n) = fIsNaN mb eb n := by
  obtain ⟨_, _, hexp, hmant⟩ := fNeg_fields mb eb n hn
  unfold fIsNaN
  rw [hexp, hmant]

theorem fLe_of_finite (mb eb a b : ℕ) (ha : fExp mb eb a < fEmax eb)
    (hb : fExp mb eb b < fEmax eb) (hv : fVal mb eb a ≤ fVal mb eb b) :
    fLe mb eb a b = true := by
  unfold fLe
  rw [fIsNaN_of_finite mb eb a ha, fIsNaN_of_finite mb eb b hb]
  simp [fFinite, ha, hb, hv]

theorem fEq_of_finite (mb eb a b : ℕ) (ha : fExp mb eb a < fEmax eb)
    (hb : fExp mb eb b < fEmax eb) (hv : fVal mb eb a = fVal mb eb b) :
    fEqIEEE mb eb a b = true := by
  unfold fEqIEEE
  rw [fIsNaN_of_finite mb eb a ha, fIsNaN_of_finite mb eb b hb]
  simp [fFinite, ha, hb, hv]

theorem fIsInf_of_nonfinite (mb eb n : ℕ) (hn : n < 2 ^ (mb + eb + 1))
    (hnan : fIsNaN mb eb n = false) (hfin : ¬ fExp mb eb n < fEmax eb) :
    fIsInf mb eb n = true ∧ fExp mb eb n = fEmax eb := by
  have he2 := (fields_recompose mb eb n hn).2.2.1
  have he : fExp mb eb n = fEmax eb := by
    unfold fEmax at *
    omega
  unfold fIsNaN at hnan
  unfold fIsInf
  simp [he] at hnan ⊢
  exact hnan

theorem fLe_self (mb eb n : ℕ) (hn : n < 2 ^ (mb + eb + 1))
    (hnan : fIsNaN mb eb n = false) : fLe mb eb n n = true := by
  by_cases hfin : fExp mb eb n < fEmax eb
  · exact fLe_of_finite mb eb n n hfin hfin le_rfl
  · obtain ⟨hinf, _⟩ := fIsInf_of_nonfinite mb eb n hn hnan hfin
    have hs2 := (fields_recompose mb eb n hn).2.1
    unfold fLe
    rw [hnan]
    rcases (by omega : fSignBit mb eb n = 0 ∨ fSignBit mb eb n = 1) with h | h
    · rw [h]
      simp [hinf]
    · rw [h]
      simp [hinf]

theorem fEq_self (mb eb n : ℕ) (hn : n < 2 ^ (mb + eb + 1))
    (hnan : fIsNaN mb eb n = false) : fEqIEEE mb eb n n = true := by
  by_cases hfin : fExp mb eb n < fEmax eb
  · exact fEq_of_finite mb eb n n hfin hfin rfl
  · obtain ⟨hinf, _⟩ := fIsInf_of_nonfinite mb eb n hn hnan hfin
    unfold fEqIEEE
    rw [hnan]
    simp [hinf]

theorem floorBits_of_top (mb eb n : ℕ) (heb : 2 ≤ eb) (hsize : mb < 2 ^ (eb - 1))
    (htop : fExp mb eb n = fEmax eb) : floorBits mb eb n = n := by
  rw [floorBits_eq mb eb n (by omega)]
  rw [if_pos ?_]
  rw [htop]
  have hpw : 2 ^ eb = 2 * 2 ^ (eb - 1) := by
    conv_lhs => rw [show eb = (eb - 1) + 1 by omega]
    rw [pow_succ]; ring
  unfold fEmax fBias
  have h1 : 1 ≤ 2 ^ (eb - 1) := Nat.one_le_two_pow
  omega

theorem ceilBits_of_top (mb eb n : ℕ) (heb : 2 ≤ eb) (hsize : mb < 2 ^ (eb - 1))
    (htop : fExp mb eb n = fEmax eb) : ceilBits mb eb n = n := by
  rw [ceilBits_eq mb eb n (by omega)]
  rw [if_pos ?_]
  rw [htop]
  have hpw : 2 ^ eb = 2 * 2 ^ (eb - 1) := by
    conv_lhs => rw [show eb = (eb - 1) + 1 by omega]
    rw [pow_succ]; ring
  unfold fEmax fBias
  have h1 : 1 ≤ 2 ^ (eb - 1) := Nat.one_le_two_pow
  omega

/-- Assembly of claim C3 for one floating-point format: on every non-NaN
pattern, floor is `≤` the input, the input is `≤` ceiling, floor fixes
integral values (IEEE equality), and `ceil(-x) == -floor(x)`. -/
theorem c3_generic (mb eb : ℕ) (hmb : 1 ≤ mb) (heb : 2 ≤ eb) (hsize : mb < 2 ^ (eb - 1))
    (n : ℕ) (hn : n < 2 ^ (mb + eb + 1)) (hnan : fIsNaN mb eb n = false) :
    fLe mb eb (floorBits mb eb n) n = true ∧
      fLe mb eb n (ceilBits mb eb n) = true ∧
      ((∃ z : ℤ, fVal mb eb n = (z : ℚ)) → fEqIEEE mb eb (floorBits mb eb n) n = true) ∧
      fEqIEEE mb eb (ceilBits mb eb (fNeg mb eb n)) (fNeg mb eb (floorBits mb eb n))
        = true := by
  by_cases hfin : fExp mb eb n < fEmax eb
  · obtain ⟨hfb, hff, hfv⟩ := floor_correct mb eb hmb heb hsize n hn hfin
    obtain ⟨hcb, hcf, hcv⟩ := ceil_correct mb eb hmb heb hsize n hn hfin
    obtain ⟨hnb, hnsgn, hnexp, hnmant⟩ := fNeg_fields mb eb n hn
    have hnegfin : fExp mb eb (fNeg mb eb n) < fEmax eb := by rw [hnexp]; exact hfin
    obtain ⟨hcb2, hcf2, hcv2⟩ := ceil_correct mb eb hmb heb hsize (fNeg mb eb n) hnb hnegfin
    obtain ⟨hfnb, hfnsgn, hfnexp, hfnmant⟩ := fNeg_fields mb eb (floorBits mb eb n) hfb
    refine ⟨?_, ?_, ?_, ?_⟩
    · refine fLe_of_finite mb eb _ _ hff hfin ?_
      rw [hfv]
      exact Int.floor_le _
    · refine fLe_of_finite mb eb _ _ hfin hcf ?_
      rw [hcv]
      exact Int.le_ceil _
    · rintro ⟨z, hz⟩
      refine fEq_of_finite mb eb _ _ hff hfin ?_
      rw [hfv, hz, Int.floor_intCast]
    · refine fEq_of_finite mb eb _ _ hcf2 (by rw [hfnexp]; exact hff) ?_
      rw [hcv2, fVal_fNeg mb eb n hn, Int.ceil_neg,
        fVal_fNeg mb eb (floorBits mb eb n) hfb, hfv]
      push_cast
      ring
  · obtain ⟨hinf, htop⟩ := fIsInf_of_nonfinite mb eb n hn hnan hfin
    have hfl := floorBits_of_top mb eb n heb hsize htop
    have hcl := ceilBits_of_top mb eb n heb hsize htop
    obtain ⟨hnb, hnsgn, hnexp, hnmant⟩ := fNeg_fields mb eb n hn
    have hcl2 := ceilBits_of_top mb eb (fNeg mb eb n) heb hsize (by rw [hnexp]; exact htop)
    refine ⟨?_, ?_, ?_, ?_⟩
    · rw [hfl]
      exact fLe_self mb eb n hn hnan
    · rw [hcl]
      exact fLe_self mb eb n hn hnan
    · intro _
      rw [hfl]
      exact fEq_self mb eb n hn hnan
    · rw [hfl, hcl2]
      exact fEq_self mb eb (fNeg mb eb n) hnb (by rw [fIsNaN_fNeg mb eb n hn]; exact hnan)

/-- C3 counterexample: the claim as stated quantifies over every float value;
at the (quiet) NaN pattern `0x7FC00000`, `round_neg_inf` returns the pattern
unchanged and the IEEE comparison `round_neg_inf(x) <= x` is false, since every
comparison with a NaN is false. -/
theorem floor_le_fails_on_nan :
    fLe 23 8 (round_neg_inf_f32 0x7FC00000) 0x7FC00000 = false := by decide

/-- C3 (amended to non-NaN inputs): for every float or double bit pattern `x`
that is not a NaN, `round_neg_inf(x) ≤ x ≤ round_pos_inf(x)` (IEEE
comparisons); `round_neg_inf(x) == x` (IEEE equality) whenever `x` denotes an
integer; and `round_pos_inf(-x) == -round_neg_inf(x)`; concretely,
`round_neg_inf(-1.5f) = -2.0f` and `round_pos_inf(-1.5f) = -1.0f`. -/
theorem floor_ceil_correct_nonNaN :
    (∀ n : ℕ, n < 2 ^ 32 → fIsNaN 23 8 n = false →
      fLe 23 8 (round_neg_inf_f32 n) n = true ∧
      fLe 23 8 n (round_pos_inf_f32 n) = true ∧
      ((∃ z : ℤ, fVal 23 8 n = (z : ℚ)) →
        fEqIEEE 23 8 (round_neg_inf_f32 n) n = true) ∧
      fEqIEEE 23 8 (round_pos_inf_f32 (fNeg 23 8 n)) (fNeg 23 8 (round_neg_inf_f32 n))
        = true) ∧
    (∀ n : ℕ, n < 2 ^ 64 → fIsNaN 52 11 n = false →
      fLe 52 11 (round_neg_inf_f64 n) n = true ∧
      fLe 52 11 n (round_pos_inf_f64 n) = true ∧
      ((∃ z : ℤ, fVal 52 11 n = (z : ℚ)) →
        fEqIEEE 52 11 (round_neg_inf_f64 n) n = true) ∧
      fEqIEEE 52 11 (round_pos_inf_f64 (fNeg 52 11 n)) (fNeg 52 11 (round_neg_inf_f64 n))
        = true) ∧
    round_neg_inf_f32 0xBFC00000 = 0xC0000000 ∧
    round_pos_inf_f32 0xBFC00000 = 0xBF800000 := by
  refine ⟨?_, ?_, by decide, by decide⟩
  · intro n hn hnan
    exact c3_generic 23 8 (by norm_num) (by norm_num) (by norm_num) n hn hnan
  · intro n hn hnan
    exact c3_generic 52 11 (by norm_num) (by norm_num) (by norm_num) n hn hnan

/-- Witness for C3 at the concrete pattern of `-1.5f`. -/
theorem floor_ceil_correct_nonNaN_witness :
    (0xBFC00000 : ℕ) < 2 ^ 32 ∧ fIsNaN 23 8 0xBFC00000 = false ∧
      (fLe 23 8 (round_neg_inf_f32 0xBFC00000) 0xBFC00000 = true ∧
        fLe 23 8 0xBFC00000 (round_pos_inf_f32 0xBFC00000) = true ∧
        ((∃ z : ℤ, fVal 23 8 0xBFC00000 = (z : ℚ)) →
          fEqIEEE 23 8 (round_neg_inf_f32 0xBFC00000) 0xBFC00000 = true) ∧
        fEqIEEE 23 8 (round_pos_inf_f32 (fNeg 23 8 0xBFC00000))
          (fNeg 23 8 (round_neg_inf_f32 0xBFC00000)) = true) :=
  ⟨by decide, by decide,
    floor_ceil_correct_nonNaN.1 0xBFC00000 (by decide) (by decide)⟩

/-- C7 (code bug): on the negative-zero float `-0.0f` (pattern `0x80000000`)
and double `-0.0` the comparison `v.raw < 0.0` yields 0 although the most
significant (sign) bit is 1, contradicting the claim and the source's own
comment; likewise for a negative NaN.  The uint8 overload does return bit 7,
as the concrete lanes 0x80 and 0x7F illustrate. -/
theorem movemask_negzero_bug :
    movemask_f32 0x80000000 = 0 ∧ (0x80000000 : ℕ) >>> 31 = 1 ∧
      movemask_f64 0x8000000000000000 = 0 ∧ (0x8000000000000000 : ℕ) >>> 63 = 1 ∧
      movemask_f32 0xFFC00000 = 0 ∧ (0xFFC00000 : ℕ) >>> 31 = 1 ∧
      movemask_u8 0x80 = 1 ∧ movemask_u8 0x7F = 0 := by
  refine ⟨?_, by decide, ?_, by decide, ?_, by decide, by decide, by decide⟩ <;> decide

end Pik
